import Mathlib

/-!
# Verification of the split-virtqueue engine and device drivers
# of `safe-virtio-drivers`

This file gives a shallow embedding, in Lean 4, of the parts of the
repository that the verified properties talk about:

* the split virtqueue engine (`src/virtio-drivers/src/queue.rs`):
  `VirtIoQueue::new`, `add`, `AvailRing::push`, `can_pop`, `peek_used`,
  `pop_used`;
* the MMIO transport probe (`src/virtio-drivers/src/transport/mmio.rs`):
  `MmioTransport::new`;
* the block-device status conversion
  (`src/virtio-drivers/src/device/block/ty.rs`);
* the raw and buffered network drivers
  (`src/virtio-drivers/src/device/net/{dev_raw,mod}.rs`);
* the console driver (`src/virtio-drivers/src/device/console/mod.rs`);
* the input driver (`src/virtio-drivers/src/device/input/mod.rs`).

Machine integers (`u16`, `u32`, `u64`) are modelled as `Nat` with explicit
`% 65536` at the points where the Rust code uses wrapping 16-bit
arithmetic.  Rust panics (failed `assert!`, out-of-bounds indexing,
`unwrap` on `None`) are modelled by an outer `Option`: `none` means the
operation panics or diverges rather than returning.  Fallible operations
return `Except VirtIoError` inside that `Option`, mirroring
`VirtIoResult<T> = Result<T, VirtIoError>`.
-/

namespace SafeVirtio

/-- Error type of the drivers, from `src/virtio-drivers/src/error.rs`.
The `MmioError` payload enum is not declared in the copy of `error.rs`
under `src/`; its three constructors are taken from their use sites in
`src/virtio-drivers/src/transport/mmio.rs` and from the spec's error
taxonomy (`MmioError{BadMagic(v), ZeroDeviceId, UnsupportedVersion(v)}`). -/
inductive MmioError where
  | BadMagic (v : Nat)
  | ZeroDeviceId
  | UnsupportedVersion (v : Nat)
deriving DecidableEq, Repr

/-- `VirtIoError` from `src/virtio-drivers/src/error.rs`, plus the
`MmioError` variant used by `transport/mmio.rs`. -/
inductive VirtIoError where
  | QueueFull
  | NotReady
  | WrongToken
  | AlreadyUsed
  | InvalidParam
  | DmaError
  | IoError
  | Unsupported
  | ConfigSpaceTooSmall
  | ConfigSpaceMissing
  | MmioError (e : MmioError)
deriving DecidableEq, Repr

/-- A virtqueue descriptor (`struct Descriptor` in `queue.rs`):
64-bit address, 32-bit length, 16-bit flags, 16-bit next index. -/
instance {ε α : Type} [DecidableEq ε] [DecidableEq α] :
    DecidableEq (Except ε α)
  | .ok a, .ok b =>
      if h : a = b then isTrue (by rw [h]) else
        isFalse (by intro he; cases he; exact h rfl)
  | .error a, .error b =>
      if h : a = b then isTrue (by rw [h]) else
        isFalse (by intro he; cases he; exact h rfl)
  | .ok _, .error _ => isFalse (by intro he; cases he)
  | .error _, .ok _ => isFalse (by intro he; cases he)

structure Descriptor where
  addr : Nat
  len : Nat
  flags : Nat
  next : Nat
deriving DecidableEq, Repr

instance : Inhabited Descriptor := ⟨⟨0, 0, 0, 0⟩⟩

/-- `DescFlag` constants from `queue.rs`. -/
def DescFlag.EMPTY : Nat := 0
def DescFlag.NEXT : Nat := 1
def DescFlag.WRITE : Nat := 2

/-- One used-ring element (`struct UsedElem` in `queue.rs`):
`id : u32`, `len : u32`. -/
structure UsedElem where
  id : Nat
  len : Nat
deriving DecidableEq, Repr

instance : Inhabited UsedElem := ⟨⟨0, 0⟩⟩

/-- The state of one `VirtIoQueue<H, SIZE>` together with the DMA queue
page it owns (descriptor table, available ring, used ring), from
`queue.rs`.  List fields have length `SIZE`; 16-bit fields are kept
`< 65536`. -/
structure QState where
  /-- `descriptor_table` — the descriptor array in the queue page. -/
  desc : List Descriptor
  /-- `avail_ring.flags` (`AtomicU16`). -/
  availFlags : Nat
  /-- `avail_ring.idx` (`AtomicU16`). -/
  availIdx : Nat
  /-- `avail_ring.ring` — `SIZE` descriptor-head indices. -/
  availRing : List Nat
  /-- `avail_ring.used_event` (`AtomicU16`). -/
  usedEvent : Nat
  /-- `used_ring.flags` (`AtomicU16`). -/
  usedFlags : Nat
  /-- `used_ring.idx` (`AtomicU16`), written by the device. -/
  usedIdx : Nat
  /-- `used_ring.ring` — `SIZE` `UsedElem` entries, written by the device. -/
  usedRing : List UsedElem
  /-- `used_ring.avail_event` (`AtomicU16`). -/
  availEvent : Nat
  /-- `avail_desc_index : VecDeque<u16>` — the free-descriptor list;
  the list head is the deque front. -/
  avail_desc_index : List Nat
  /-- `last_seen_used : u16`. -/
  last_seen_used : Nat
  /-- `poped_used : BTreeSet<u16>` — kept as a duplicate-free list. -/
  poped_used : List Nat
deriving DecidableEq, Repr

/-- The contents of a freshly `dma_alloc`-ed queue page, as found by
`VirtIoQueue::new`.  The qemu-side `Hal` implementation
(`src/qemu/src/my_impl.rs`) bump-allocates physical pages without
writing to them, so `new` sees whatever the page already held. -/
structure QueuePage where
  desc : List Descriptor
  availFlags : Nat
  availIdx : Nat
  availRing : List Nat
  usedEvent : Nat
  usedFlags : Nat
  usedIdx : Nat
  usedRing : List UsedElem
  availEvent : Nat
deriving DecidableEq, Repr

/-- An all-zero queue page of size `SIZE` (what `new` sees when the
platform hands out zeroed memory). -/
def QueuePage.zeroed (SIZE : Nat) : QueuePage where
  desc := List.replicate SIZE default
  availFlags := 0
  availIdx := 0
  availRing := List.replicate SIZE 0
  usedEvent := 0
  usedFlags := 0
  usedIdx := 0
  usedRing := List.replicate SIZE default
  availEvent := 0

/-- A queue page has the layout of a queue of size `SIZE`. -/
def QueuePage.WF (SIZE : Nat) (p : QueuePage) : Prop :=
  p.desc.length = SIZE ∧ p.availRing.length = SIZE ∧ p.usedRing.length = SIZE

instance (SIZE : Nat) (p : QueuePage) : Decidable (p.WF SIZE) := by
  unfold QueuePage.WF; infer_instance

/-- `usize::is_power_of_two`: exactly one bit set. -/
def isPowerOfTwo (n : Nat) : Bool :=
  n ≠ 0 && Nat.land n (n - 1) = 0

/-- `VirtIoQueue::new` (`queue.rs` lines 31–64).  The transport
interactions are represented by the two values the code reads from the
transport: `queueUsed = transport.queue_used(queue_idx)` and
`maxQueueSize = transport.max_queue_size(queue_idx)`.  On success the
driver-side fields are initialised (`avail_desc_index = 0..SIZE`,
`last_seen_used = 0`, `poped_used = ∅`) while the ring memory keeps
whatever the allocated page held — `new` writes none of it. -/
def VirtIoQueue.new (SIZE : Nat) (queueUsed : Bool) (maxQueueSize : Nat)
    (page : QueuePage) : Except VirtIoError QState :=
  if queueUsed then
    .error .AlreadyUsed
  else if ¬ (isPowerOfTwo SIZE) ∨ SIZE > 65535 ∨ maxQueueSize < SIZE then
    .error .InvalidParam
  else
    .ok {
      desc := page.desc
      availFlags := page.availFlags
      availIdx := page.availIdx
      availRing := page.availRing
      usedEvent := page.usedEvent
      usedFlags := page.usedFlags
      usedIdx := page.usedIdx
      usedRing := page.usedRing
      availEvent := page.availEvent
      avail_desc_index := List.range SIZE
      last_seen_used := 0
      poped_used := [] }

/-- The conditional re-linking `if let Some(nex) = last { d.next = nex }`
performed on each descriptor before it is stored. -/
def linkDesc (last : Option Nat) (d : Descriptor) : Descriptor :=
  match last with
  | some nex => { d with next := nex }
  | none => d

/-- The descriptor-writing loop of `VirtIoQueue::add` (`queue.rs` lines
128–135), which iterates over `data.into_iter().rev()`: the argument
list here is already the reversed chain.  Each step pops the front of
the free list (`pop_front().unwrap()` — `none` if the deque is empty),
links `d.next` to the previously written index, and stores the
descriptor at `desc[id % SIZE]`.  Returns the updated table, the
remaining free list, and `last`. -/
def addLoop (SIZE : Nat) :
    List Descriptor → List Nat → Option Nat → List Descriptor →
    Option (List Descriptor × List Nat × Option Nat)
  | desc, free, last, [] => some (desc, free, last)
  | desc, free, last, d :: rest =>
      match free with
      | [] => none
      | id :: free' =>
          addLoop SIZE (desc.set (id % SIZE) (linkDesc last d)) free'
            (some id) rest

/-- `VirtIoQueue::add` (`queue.rs` lines 120–141).  `none` models the
`assert_ne!(data.len(), 0)` panic; the `QueueFull` early return happens
before any state is touched.  On success the head index is pushed into
the available ring (`AvailRing::push`, lines 310–316: store at
`ring[idx % SIZE]`, then `idx.wrapping_add(1)`) and returned as the
token. -/
def VirtIoQueue.add (SIZE : Nat) (s : QState) (data : List Descriptor) :
    Option (Except VirtIoError (QState × Nat)) :=
  if data.length = 0 then none
  else if s.avail_desc_index.length < data.length then
    some (.error .QueueFull)
  else
    (addLoop SIZE s.desc s.avail_desc_index none data.reverse).bind fun r =>
      r.2.2.bind fun head =>
        some (.ok ({ s with
          desc := r.1
          avail_desc_index := r.2.1
          availRing := s.availRing.set (s.availIdx % SIZE) head
          availIdx := (s.availIdx + 1) % 65536 }, head))

/-- The scan shared by `can_pop` and the header search in `pop_used`
(`queue.rs` lines 149–156 and 205–214): starting at used-ring position
`cur`, look at `used.ring[cur % SIZE].id` for `cnt` slots, wrapping
`cur` with 16-bit arithmetic; return the position (`header`) of the
first entry whose id equals `t`. -/
def scanFind (ring : List UsedElem) (SIZE : Nat) (t : Nat) :
    Nat → Nat → Option Nat
  | _, 0 => none
  | cur, cnt + 1 =>
      (ring.get? (cur % SIZE)).bind fun e =>
        if e.id = t then some cur
        else scanFind ring SIZE t ((cur + 1) % 65536) cnt

/-- `VirtIoQueue::can_pop` (`queue.rs` lines 143–158).  `skip` is the
wrapping difference `used.idx.wrapping_sub(last_seen_used)`. -/
def VirtIoQueue.can_pop (SIZE : Nat) (s : QState) (t : Nat) : Bool :=
  if s.last_seen_used = s.usedIdx then false
  else
    (scanFind s.usedRing SIZE t s.last_seen_used
      ((s.usedIdx + 65536 - s.last_seen_used) % 65536)).isSome

/-- `VirtIoQueue::peek_used` (`queue.rs` lines 161–168): the id of the
entry at `last_seen_used`, without consuming it. -/
def VirtIoQueue.peek_used (SIZE : Nat) (s : QState) : Option Nat :=
  if s.last_seen_used = s.usedIdx then none
  else (s.usedRing.get? (s.last_seen_used % SIZE)).map UsedElem.id

/-- The descriptor-chain walk of `pop_used` (`queue.rs` lines 219–226):
starting at `now = id`, push `now` on the free list, and while
`desc[now].flags & NEXT != 0` move to `desc[now % SIZE].next` and push
again.  Note the flags read `desc[now]` is *not* reduced `% SIZE` in the
source, so an out-of-range index panics (`none`).  A walk of more than
`SIZE` steps revisits an index and hence loops forever in the source, so
fuel `SIZE + 1` captures every terminating run. -/
def popWalk (desc : List Descriptor) (SIZE : Nat) : Nat → Nat → Option (List Nat)
  | _, 0 => none
  | now, fuel + 1 =>
      (desc.get? now).bind fun d =>
        if d.flags &&& DescFlag.NEXT ≠ 0 then
          (desc.get? (now % SIZE)).bind fun d2 =>
            (popWalk desc SIZE d2.next fuel).map (now :: ·)
        else some [now]

/-- The cursor-advance loop at the end of `pop_used` (`queue.rs` lines
228–235): while `poped_used` contains `last_seen_used`, remove it and
advance the cursor with wrapping 16-bit increment.  Each iteration
removes one element of the set, so fuel `poped.length + 1` is exact. -/
def advanceLoop : List Nat → Nat → Nat → (List Nat × Nat)
  | poped, ls, 0 => (poped, ls)
  | poped, ls, fuel + 1 =>
      if ls ∈ poped then
        advanceLoop (poped.erase ls) ((ls + 1) % 65536) fuel
      else (poped, ls)

/-- `BTreeSet::insert` on the duplicate-free list model. -/
def setInsert (l : List Nat) (x : Nat) : List Nat :=
  if x ∈ l then l else x :: l

/-- `VirtIoQueue::pop_used` (`queue.rs` lines 197–237).  Fails with
`NotReady` when `can_pop` is false; otherwise finds the used-ring
position `header` holding the token (the `assert_ne!` that the header
was found is a panic, `none`, if the scan fails), records it in
`poped_used`, returns the chain's descriptor indices to the tail of the
free list, advances `last_seen_used` past the contiguous popped
positions, and returns the `len` the device wrote. -/
def VirtIoQueue.pop_used (SIZE : Nat) (s : QState) (t : Nat) :
    Option (Except VirtIoError (QState × Nat)) :=
  if ¬ VirtIoQueue.can_pop SIZE s t then
    some (.error .NotReady)
  else
    (scanFind s.usedRing SIZE t s.last_seen_used
        ((s.usedIdx + 65536 - s.last_seen_used) % 65536)).bind fun header =>
      (s.usedRing.get? (header % SIZE)).bind fun elem =>
        (popWalk s.desc SIZE t (SIZE + 1)).bind fun freed =>
          some (.ok ({ s with
            poped_used := (advanceLoop (setInsert s.poped_used header)
              s.last_seen_used ((setInsert s.poped_used header).length + 1)).1
            last_seen_used := (advanceLoop (setInsert s.poped_used header)
              s.last_seen_used ((setInsert s.poped_used header).length + 1)).2
            usedEvent := (advanceLoop (setInsert s.poped_used header)
              s.last_seen_used ((setInsert s.poped_used header).length + 1)).2
            avail_desc_index := s.avail_desc_index ++ freed }, elem.len))

/-- The device's completion of the chain with head token `t`, writing
`len` bytes: per the virtio split-ring protocol (spec §3, "Used ring":
the device writes `{id, len}` at `used.ring[used.idx % SIZE]` and then
increments `used.idx`).  The device is the external agent of the
protocol; this transition is its only interaction with the queue. -/
def deviceComplete (SIZE : Nat) (s : QState) (t len : Nat) : QState :=
  { s with
    usedRing := s.usedRing.set (s.usedIdx % SIZE) ⟨t, len⟩
    usedIdx := (s.usedIdx + 1) % 65536 }

/-- `PAGE_SIZE` from `src/virtio-drivers/src/lib.rs`. -/
def PAGE_SIZE : Nat := 4096

/-! ## MMIO transport probe (`src/virtio-drivers/src/transport/mmio.rs`) -/

/-- `MAGIC` from `transport/mmio.rs`. -/
def MAGIC : Nat := 0x74726976

/-- `LEGACY_VERSION` / `MODERN_VERSION`. -/
def LEGACY_VERSION : Nat := 1
def MODERN_VERSION : Nat := 2

/-- `enum MmioVersion`. -/
inductive MmioVersion where
  | Legacy
  | Modern
deriving DecidableEq, Repr

/-- `TryFrom<u32> for MmioVersion` (`mmio.rs` lines 207–217). -/
def MmioVersion.tryFrom (version : Nat) : Except VirtIoError MmioVersion :=
  if version = LEGACY_VERSION then .ok .Legacy
  else if version = MODERN_VERSION then .ok .Modern
  else .error (.MmioError (.UnsupportedVersion version))

/-- The values `MmioTransport::new` reads from the device's header
registers, in read order: magic, device id, version. -/
structure MmioRegs where
  magic : Nat
  deviceId : Nat
  version : Nat
deriving DecidableEq, Repr

/-- `MmioTransport::new` (`mmio.rs` lines 240–257): check the magic
value, then the device id, then convert the version; return the
transport's version on success. -/
def MmioTransport.new (r : MmioRegs) : Except VirtIoError MmioVersion :=
  if r.magic ≠ MAGIC then .error (.MmioError (.BadMagic r.magic))
  else if r.deviceId = 0 then .error (.MmioError .ZeroDeviceId)
  else MmioVersion.tryFrom r.version

/-! ## Block device (`src/virtio-drivers/src/device/block/ty.rs`) -/

/-- The `BlkRespStatus` constants (`ty.rs` lines 98–107); the status is
a `u8` newtype, modelled as the raw byte value. -/
def BlkRespStatus.OK : Nat := 0
def BlkRespStatus.IO_ERR : Nat := 1
def BlkRespStatus.UNSUPPORTED : Nat := 2
def BlkRespStatus.NOT_READY : Nat := 3

/-- `From<BlkRespStatus> for VirtIoResult<()>` (`ty.rs` lines 115–125):
the conversion applied to the device-written status byte after each
block request completes (`read_blocks` / `write_blocks` / `request` all
end in `resp.into()`). -/
def blkRespIntoResult (status : Nat) : Except VirtIoError Unit :=
  if status = BlkRespStatus.OK then .ok ()
  else if status = BlkRespStatus.IO_ERR then .error .IoError
  else if status = BlkRespStatus.UNSUPPORTED then .error .Unsupported
  else if status = BlkRespStatus.NOT_READY then .error .NotReady
  else .error .IoError

/-! ## Net device (`src/virtio-drivers/src/device/net/`) -/

/-- `NET_HDR_SIZE = size_of::<VirtioNetHdr>()`: the header is
`{flags: u8, gso_type: u8, hdr_len: u16, gso_size: u16, csum_start: u16,
csum_offset: u16}` = 10 bytes (`net/ty.rs`). -/
def NET_HDR_SIZE : Nat := 10

/-- `usize::checked_sub`. -/
def checkedSub (a b : Nat) : Option Nat :=
  if b ≤ a then some (a - b) else none

/-- `VirtIONetRaw::receive_complete` (`net/dev_raw.rs` lines 221–225):
pop the token from the receive queue, then
`len.checked_sub(NET_HDR_SIZE).ok_or(VirtIoError::IoError)`. -/
def VirtIONetRaw.receive_complete (SIZE : Nat) (s : QState) (t : Nat) :
    Option (Except VirtIoError (QState × Nat × Nat)) :=
  match VirtIoQueue.pop_used SIZE s t with
  | none => none
  | some (.error e) => some (.error e)
  | some (.ok (s', len)) =>
      match checkedSub len NET_HDR_SIZE with
      | none => some (.error .IoError)
      | some packet_len => some (.ok (s', NET_HDR_SIZE, packet_len))

/-- Modelled from the spec: `VirtIONet::receive` calls
`self.inner.can_recv()`, which is not present in the copy of the raw
driver under `src/` (`net/dev_raw.rs`).  Spec §4.10: "Whether can
receive packet. If can, return (token, packet length)" — the pending
used entry's token and its device-reported length, observed without
consuming, i.e. `peek_used` plus the matching used-ring length. -/
def VirtIONetRaw.can_recv (SIZE : Nat) (s : QState) : Option (Nat × Nat) :=
  match VirtIoQueue.peek_used SIZE s with
  | none => none
  | some t =>
      some (t, ((s.usedRing.get? (s.last_seen_used % SIZE)).map
        UsedElem.len).getD 0)

/-- `VirtIONet::receive` (`net/mod.rs` lines 85–95): if a used entry is
pending, complete it and copy the packet bytes (header excluded) out of
that slot's receive buffer into `data`; otherwise `NotReady`.  `rx` is
`self.rx_buffers`; the returned list is the updated `data` buffer and
the returned number is `pkt_len`.  Out-of-range buffer accesses
(`rx_buffers[token]`, the two slicings) are panics (`none`). -/
def VirtIONet.receive (SIZE : Nat) (s : QState) (rx : List (List Nat))
    (data : List Nat) :
    Option (Except VirtIoError (QState × List Nat × Nat)) :=
  match VirtIONetRaw.can_recv SIZE s with
  | none => some (.error .NotReady)
  | some (t, _) =>
      match rx.get? t with
      | none => none
      | some rx_buf =>
          match VirtIONetRaw.receive_complete SIZE s t with
          | none => none
          | some (.error e) => some (.error e)
          | some (.ok (s', hdr_len, pkt_len)) =>
              if pkt_len ≤ data.length ∧ hdr_len + pkt_len ≤ rx_buf.length then
                some (.ok (s',
                  (rx_buf.drop hdr_len).take pkt_len ++ data.drop pkt_len,
                  pkt_len))
              else none

/-! ## Console device (`src/virtio-drivers/src/device/console/mod.rs`) -/

/-- `QUEUE_SIZE` of the console driver. -/
def consoleQueueSize : Nat := 2

/-- `VirtIoQueue::add_notify_wait_pop` (`queue.rs` lines 77–92): add the
chain, notify, spin until `can_pop(token)`, then `pop_used(token)`.  The
spin exits only once the device has completed the request, so the
blocking call is modelled as add → device completion of the returned
token (reporting `devLen` bytes) → pop.  The notify itself only touches
the transport, not the queue. -/
def VirtIoQueue.add_notify_wait_pop (SIZE : Nat) (s : QState)
    (data : List Descriptor) (devLen : Nat) :
    Option (Except VirtIoError (QState × Nat)) :=
  match VirtIoQueue.add SIZE s data with
  | none => none
  | some (.error e) => some (.error e)
  | some (.ok (s1, token)) =>
      VirtIoQueue.pop_used SIZE (deviceComplete SIZE s1 token devLen) token

/-- The console driver state relevant to receiving (`console/mod.rs`):
the receive queue, the cursor into the receive buffer, the pending
length, and the recorded token of the outstanding receive request.  The
transmit queue and the buffer bytes play no role in the verified
properties. -/
structure ConsoleState where
  receiveq : QState
  cursor : Nat
  pending_len : Nat
  receive_token : Option Nat
deriving DecidableEq, Repr

/-- `VirtIOConsole::poll_retrieve` (`console/mod.rs` lines 65–89): when
there is neither an outstanding request (`receive_token.is_none()`) nor
unread bytes (`cursor == pending_len`), build one WRITE descriptor over
the whole page-sized receive buffer (at address `bufAddr`) and run
`add_notify_wait_pop` on the receive queue — blocking until the device
answers with `devLen` bytes and popping the request — then set
`receive_token = Some(0)`. -/
def VirtIOConsole.poll_retrieve (bufAddr : Nat) (c : ConsoleState)
    (devLen : Nat) : Option (Except VirtIoError ConsoleState) :=
  if c.receive_token = none ∧ c.cursor = c.pending_len then
    let req : Descriptor := ⟨bufAddr, PAGE_SIZE, DescFlag.WRITE, 0⟩
    match VirtIoQueue.add_notify_wait_pop consoleQueueSize c.receiveq [req]
        devLen with
    | none => none
    | some (.error e) => some (.error e)
    | some (.ok (q', _l)) =>
        some (.ok { c with receiveq := q', receive_token := some 0 })
  else some (.ok c)

/-! ## Input device (`src/virtio-drivers/src/device/input/mod.rs`) -/

/-- `QUEUE_SIZE` of the input driver. -/
def inputQueueSize : Nat := 32

/-- The descriptor the input driver posts for event slot `i`:
`Descriptor::new(&event_buf[i], size_of::<InputEvent>(), WRITE)`, where
`InputEvent = {type: u16, code: u16, value: u32}` is 8 bytes and
`event_buf` starts at address `ebase` (the HAL's address translation is
the identity, spec §4.3). -/
def inputDesc (ebase i : Nat) : Descriptor :=
  ⟨ebase + 8 * i, 8, DescFlag.WRITE, 0⟩

/-- The slot-posting loop of `VirtIOInput::new` (`input/mod.rs` lines
40–49): for each `i` in order, add a one-descriptor WRITE chain for
`event_buf[i]` and `assert_eq!(token, i)` (`none` on assertion
failure). -/
def postSlots (ebase : Nat) : QState → List Nat → Option QState
  | s, [] => some s
  | s, i :: rest =>
      (VirtIoQueue.add inputQueueSize s [inputDesc ebase i]).bind fun r =>
        match r with
        | .ok (s', tok) => if tok = i then postSlots ebase s' rest else none
        | .error _ => none

/-! ## Ghost state and reachability for the queue engine -/

/-- A queue state together with the ghost list of published-but-not-yet
popped chains: for each, the token returned by `add` and the descriptor
indices the corresponding call popped off the free list, head first. -/
structure GState where
  q : QState
  published : List (Nat × List Nat)
deriving DecidableEq, Repr

/-- The indices `pop_used(t)` would return to the free list: the walk of
`queue.rs` lines 219–226 from `t`, or `[]` if that walk panics or
diverges. -/
def reachList (SIZE : Nat) (desc : List Descriptor) (t : Nat) : List Nat :=
  (popWalk desc SIZE t (SIZE + 1)).getD []

/-- The descriptor-flag convention every in-crate caller of `add`
follows (block, console, gpu, input, net): in a chain, every descriptor
but the last carries the NEXT flag and the last one does not.  `add`
itself never touches the flags. -/
def WFChain : List Descriptor → Prop
  | [] => False
  | [d] => d.flags &&& DescFlag.NEXT = 0
  | d :: rest => d.flags &&& DescFlag.NEXT ≠ 0 ∧ WFChain rest

/-- States reachable by sequences of successful `add` and `pop_used`
calls, every `add` argument satisfying `P`, each returned token popped
at most once and only after the device completed it.  The transitions
are: queue creation (`VirtIoQueue::new` on a well-laid-out DMA page),
a successful `add data` (publishing the token with the indices the call
popped, head first), the device completing a published chain, and a
successful `pop_used` of a published token (reclaiming it). -/
inductive QueueReach (SIZE : Nat) (P : List Descriptor → Prop) : GState → Prop where
  | init (qU : Bool) (mx : Nat) (page : QueuePage) (q : QState) :
      page.WF SIZE → VirtIoQueue.new SIZE qU mx page = .ok q →
      QueueReach SIZE P ⟨q, []⟩
  | add (g : GState) (data : List Descriptor) (q' : QState) (tok : Nat) :
      QueueReach SIZE P g → P data →
      VirtIoQueue.add SIZE g.q data = some (.ok (q', tok)) →
      QueueReach SIZE P
        ⟨q', (tok, (g.q.avail_desc_index.take data.length).reverse) ::
          g.published⟩
  | complete (g : GState) (t len : Nat) :
      QueueReach SIZE P g → t ∈ g.published.map Prod.fst →
      QueueReach SIZE P ⟨deviceComplete SIZE g.q t len, g.published⟩
  | pop (g : GState) (t : Nat) (c : List Nat) (l1 l2 : List (Nat × List Nat))
      (q' : QState) (len : Nat) :
      QueueReach SIZE P g → g.published = l1 ++ (t, c) :: l2 →
      VirtIoQueue.pop_used SIZE g.q t = some (.ok (q', len)) →
      QueueReach SIZE P ⟨q', l1 ++ l2⟩

/-- The property of claim C1 at a quiescent point: free descriptors plus
descriptors reachable from live published chains account for exactly
`SIZE` slots, and no index is both free and reachable from a live
chain. -/
def FreeLiveProp (SIZE : Nat) (g : GState) : Prop :=
  g.q.avail_desc_index.length +
      (g.published.map (fun p => (reachList SIZE g.q.desc p.1).length)).sum
    = SIZE ∧
  ∀ i ∈ g.q.avail_desc_index, ∀ p ∈ g.published,
    i ∉ reachList SIZE g.q.desc p.1

instance (SIZE : Nat) (g : GState) : Decidable (FreeLiveProp SIZE g) := by
  unfold FreeLiveProp; infer_instance

/-- The strengthened invariant that `QueueReach` (with the caller flag
convention) maintains: the table has `SIZE` entries, the free list and
the published chains partition `0..SIZE`, and the descriptor table
encodes each published chain (its `pop_used` walk returns exactly the
indices its `add` popped). -/
def QueueInv (SIZE : Nat) (g : GState) : Prop :=
  g.q.desc.length = SIZE ∧
  (g.q.avail_desc_index ++ (g.published.map Prod.snd).flatten).Perm
    (List.range SIZE) ∧
  ∀ p ∈ g.published, popWalk g.q.desc SIZE p.1 (SIZE + 1) = some p.2

/-- Chain-encoding predicate: the descriptor table stores the chain
`data` at the index list `ids` (head first): each descriptor except the
last is stored with its `next` field pointing at the following index,
the last one is stored unchanged (flags, address and length are stored
unchanged throughout), except that the last stored descriptor's `next`
is overriden with `term` when `term` is set. -/
def ChainStoredAux (desc : List Descriptor) (term : Option Nat) :
    List Nat → List Descriptor → Prop
  | [], [] => True
  | [i], [d] => desc.get? i = some (linkDesc term d)
  | i :: i2 :: is, d :: ds =>
      desc.get? i = some { d with next := i2 } ∧
      ChainStoredAux desc term (i2 :: is) ds
  | _, _ => False

/-- The encoding used by `add` with the caller's own terminal `next`. -/
def ChainStored (desc : List Descriptor) (ids : List Nat)
    (data : List Descriptor) : Prop :=
  ChainStoredAux desc none ids data

/-- What the `add` loop stores, in processing (reverse-chain) order:
the `j`-th processed descriptor goes to the `j`-th free index, its
`next` pointing at the previously used index (`term` for the first
one when `term` is set). -/
def RevStored (desc : List Descriptor) : Option Nat → List Nat →
    List Descriptor → Prop
  | _, [], [] => True
  | last, f :: fs, e :: es =>
      desc.get? f = some (linkDesc last e) ∧
      RevStored desc (some f) fs es
  | _, _, _ => False

/-- The `last` register after the `add` loop has consumed `popped`. -/
def lastAfter : Option Nat → List Nat → Option Nat
  | last, [] => last
  | _, x :: xs => lastAfter (some x) xs

/-! ## Ghost state and reachability for the input driver -/

/-- The input-driver state: the event queue, the ghost published chains,
and the ghost queue of tokens the device has completed (written to the
used ring) but the driver has not yet popped, in completion order. -/
structure IState where
  q : QState
  published : List (Nat × List Nat)
  completed : List Nat
deriving DecidableEq, Repr

/-- States of the input driver's event queue reachable from
initialisation (all `QUEUE_SIZE = 32` slots posted by `VirtIOInput::new`
on a fresh queue whose used ring starts empty) under device completions
and runs of `pop_pending_event` (`input/mod.rs` lines 70–112): peek a
ready token, pop it and re-post the same slot. -/
inductive InputReach (ebase : Nat) : IState → Prop where
  | init (qU : Bool) (mx : Nat) (page : QueuePage) (q0 q1 : QState) :
      page.WF inputQueueSize → page.usedIdx = 0 →
      VirtIoQueue.new inputQueueSize qU mx page = .ok q0 →
      postSlots ebase q0 (List.range inputQueueSize) = some q1 →
      InputReach ebase
        ⟨q1, (List.range inputQueueSize).map (fun i => (i, [i])), []⟩
  | complete (g : IState) (t len : Nat) :
      InputReach ebase g → t ∈ g.published.map Prod.fst →
      t ∉ g.completed →
      InputReach ebase
        ⟨deviceComplete inputQueueSize g.q t len, g.published,
          g.completed ++ [t]⟩
  | popEvent (g : IState) (t : Nat) (c : List Nat)
      (l1 l2 : List (Nat × List Nat)) (ctail : List Nat)
      (q' q'' : QState) (len tok : Nat) :
      InputReach ebase g →
      VirtIoQueue.peek_used inputQueueSize g.q = some t →
      g.published = l1 ++ (t, c) :: l2 →
      g.completed = t :: ctail →
      VirtIoQueue.pop_used inputQueueSize g.q t = some (.ok (q', len)) →
      VirtIoQueue.add inputQueueSize q' [inputDesc ebase t] =
        some (.ok (q'', tok)) →
      InputReach ebase ⟨q'', (l1 ++ l2) ++ [(t, [t])], ctail⟩

/-- The invariant of the input driver's event queue: every slot is
outstanding (the free list is empty), the published chains are exactly
the singletons over `0..32` with NEXT-free stored flags, the completed
ghost queue matches the unread used-ring window, and no out-of-order
positions are pending. -/
def InputInv (g : IState) : Prop :=
  g.q.desc.length = inputQueueSize ∧
  g.q.availRing.length = inputQueueSize ∧
  g.q.usedRing.length = inputQueueSize ∧
  g.q.avail_desc_index = [] ∧
  (∀ p ∈ g.published, p.2 = [p.1] ∧ p.1 < inputQueueSize ∧
    ∃ d, g.q.desc.get? p.1 = some d ∧ d.flags &&& DescFlag.NEXT = 0) ∧
  (g.published.map Prod.fst).Perm (List.range inputQueueSize) ∧
  g.completed.Nodup ∧
  (∀ t ∈ g.completed, t ∈ g.published.map Prod.fst) ∧
  g.q.last_seen_used < 65536 ∧
  g.q.usedIdx = (g.q.last_seen_used + g.completed.length) % 65536 ∧
  g.completed.length ≤ inputQueueSize ∧
  (∀ j t, g.completed.get? j = some t →
    (g.q.usedRing.get? ((g.q.last_seen_used + j) % inputQueueSize)).map
      UsedElem.id = some t) ∧
  g.q.poped_used = []

/-- The queue state `pop_used` leaves behind when it pops the head of
the used-ring window of a fully-posted queue: the popped token is the
whole free list, the cursor moved one slot, the completion set empty. -/
def popResultState (s : QState) (t : Nat) : QState :=
  { s with
    avail_desc_index := [t]
    poped_used := []
    last_seen_used := (s.last_seen_used + 1) % 65536
    usedEvent := (s.last_seen_used + 1) % 65536 }

/-- The composition at the heart of `VirtIOInput::pop_pending_event`
(`input/mod.rs` lines 70–112) once `peek_used` has yielded a token:
`pop_used(token)` followed by re-adding the same slot's descriptor; the
value returned is the token of the re-posting `add`, which the driver
asserts equals the popped one. -/
def repostAfterPop (SIZE ebase : Nat) (s : QState) (t : Nat) :
    Option (Except VirtIoError Nat) :=
  match VirtIoQueue.pop_used SIZE s t with
  | none => none
  | some (.error e) => some (.error e)
  | some (.ok (s', _len)) =>
      (VirtIoQueue.add SIZE s' [inputDesc ebase t]).map (Except.map Prod.snd)

/-! ## Concrete states used by witnesses and counterexamples -/

instance : Inhabited QState :=
  ⟨⟨[], 0, 0, [], 0, 0, 0, [], 0, [], 0, []⟩⟩

/-- A freshly created queue of size 4 (the value of
`VirtIoQueue::new 4` on a zeroed page). -/
def qFresh4 : QState :=
  { desc := List.replicate 4 default
    availFlags := 0
    availIdx := 0
    availRing := List.replicate 4 0
    usedEvent := 0
    usedFlags := 0
    usedIdx := 0
    usedRing := List.replicate 4 default
    availEvent := 0
    avail_desc_index := [0, 1, 2, 3]
    last_seen_used := 0
    poped_used := [] }

/-- The queue after `add` on `qFresh4` of the two-descriptor chain
`[{addr 10, len 20, flags NEXT}, {addr 11, len 22, flags WRITE}]`:
descriptor 1 holds the chain head (linked to 0), descriptor 0 the tail;
head index 1 sits in `avail.ring[0]` and `avail.idx` is 1. -/
def qTwoChain : QState :=
  { desc := [⟨11, 22, 2, 0⟩, ⟨10, 20, 1, 0⟩, ⟨0, 0, 0, 0⟩, ⟨0, 0, 0, 0⟩]
    availFlags := 0
    availIdx := 1
    availRing := [1, 0, 0, 0]
    usedEvent := 0
    usedFlags := 0
    usedIdx := 0
    usedRing := List.replicate 4 default
    availEvent := 0
    avail_desc_index := [2, 3]
    last_seen_used := 0
    poped_used := [] }

/-- The queue after `add` of the one-descriptor chain
`[{addr 0, len 0, flags NEXT, next 3}]` on `qFresh4`: the caller broke
the flag convention (a chain's last descriptor must not carry NEXT). -/
def qBadChain : QState :=
  { qFresh4 with
    desc := ⟨0, 0, 1, 3⟩ :: List.replicate 3 default
    availIdx := 1
    availRing := [0, 0, 0, 0]
    avail_desc_index := [1, 2, 3] }

/-- `qBadChain` with its ghost published chain. -/
def gBadChain : GState := ⟨qBadChain, [(0, [0])]⟩

/-- A size-4 queue page holding junk in the available-ring header
fields (flags 7, idx 5), as a bump allocator may hand out. -/
def junkPage : QueuePage :=
  { desc := List.replicate 4 default
    availFlags := 7
    availIdx := 5
    availRing := List.replicate 4 0
    usedEvent := 0
    usedFlags := 0
    usedIdx := 0
    usedRing := List.replicate 4 default
    availEvent := 0 }

/-- The queue `VirtIoQueue::new 4` builds on `junkPage`: driver fields
initialised, ring memory as the page held it. -/
def qJunkNew : QState :=
  { desc := List.replicate 4 default
    availFlags := 7
    availIdx := 5
    availRing := List.replicate 4 0
    usedEvent := 0
    usedFlags := 0
    usedIdx := 0
    usedRing := List.replicate 4 default
    availEvent := 0
    avail_desc_index := List.range 4
    last_seen_used := 0
    poped_used := [] }

/-- A size-4 receive queue with the one-descriptor chain `0`
outstanding, completed by the device with 20 bytes written. -/
def exRecvS : QState :=
  { desc := List.replicate 4 default
    availFlags := 0
    availIdx := 1
    availRing := [0, 0, 0, 0]
    usedEvent := 0
    usedFlags := 0
    usedIdx := 1
    usedRing := ⟨0, 20⟩ :: List.replicate 3 default
    availEvent := 0
    avail_desc_index := [1, 2, 3]
    last_seen_used := 0
    poped_used := [] }

/-- `exRecvS` after `pop_used 0` reclaimed the chain. -/
def exRecvSPop : QState :=
  { exRecvS with
    usedEvent := 1
    avail_desc_index := [1, 2, 3, 0]
    last_seen_used := 1 }

/-- A size-4 buffered-net receive queue with all four single-descriptor
receive chains posted (tokens 0–3) and the device having completed
token 0 with 30 bytes (10-byte header + 20-byte packet). -/
def netS : QState :=
  { desc := [⟨100, 30, 2, 0⟩, ⟨101, 30, 2, 0⟩, ⟨102, 30, 2, 0⟩, ⟨103, 30, 2, 0⟩]
    availFlags := 0
    availIdx := 4
    availRing := [0, 1, 2, 3]
    usedEvent := 0
    usedFlags := 0
    usedIdx := 1
    usedRing := ⟨0, 30⟩ :: List.replicate 3 default
    availEvent := 0
    avail_desc_index := []
    last_seen_used := 0
    poped_used := [] }

/-- The four per-slot receive buffers of the `netS` scenario: 30 bytes
each, slot contents `50..80`. -/
def netRx : List (List Nat) :=
  List.replicate 4 ((List.range 30).map (· + 50))

/-- The caller's 20-byte output buffer in the `netS` scenario. -/
def netData : List Nat := List.replicate 20 0

/-- A freshly created console receive queue (size 2, zeroed page). -/
def qFresh2 : QState :=
  { desc := List.replicate 2 default
    availFlags := 0
    availIdx := 0
    availRing := List.replicate 2 0
    usedEvent := 0
    usedFlags := 0
    usedIdx := 0
    usedRing := List.replicate 2 default
    availEvent := 0
    avail_desc_index := [0, 1]
    last_seen_used := 0
    poped_used := [] }

/-- A freshly constructed console driver state. -/
def console0 : ConsoleState := ⟨qFresh2, 0, 0, none⟩

/-- A freshly created input event queue (size 32, zeroed page), before
the slots are posted. -/
def inputQ0 : QState :=
  { desc := List.replicate 32 default
    availFlags := 0
    availIdx := 0
    availRing := List.replicate 32 0
    usedEvent := 0
    usedFlags := 0
    usedIdx := 0
    usedRing := List.replicate 32 default
    availEvent := 0
    avail_desc_index := List.range 32
    last_seen_used := 0
    poped_used := [] }

/-- The input event queue after `VirtIOInput::new` posted all 32 slots
(event buffer at address 1000). -/
def inputQ1 : QState :=
  (postSlots 1000 inputQ0 (List.range 32)).getD default

/-- The ghost published chains after input initialisation. -/
def inputPub : List (Nat × List Nat) :=
  (List.range 32).map (fun i => (i, [i]))

/-- The input driver state after the device completed event slot 5 with
8 bytes. -/
def inputG : IState :=
  ⟨deviceComplete 32 inputQ1 5 8, inputPub, [5]⟩

/-! # Theorems -/

/-- Inversion of a successful `VirtIoQueue::new`: driver fields are
initialised, ring memory is taken from the page untouched. -/
theorem new_ok_spec (SIZE : Nat) (qU : Bool) (mx : Nat)
    (page : QueuePage) (q : QState)
    (h : VirtIoQueue.new SIZE qU mx page = .ok q) :
    q.avail_desc_index = List.range SIZE ∧ q.last_seen_used = 0 ∧
    q.poped_used = [] ∧ q.availFlags = page.availFlags ∧
    q.availIdx = page.availIdx ∧ q.usedIdx = page.usedIdx ∧
    q.desc = page.desc ∧ q.availRing = page.availRing ∧
    q.usedRing = page.usedRing ∧ q.usedFlags = page.usedFlags ∧
    q.usedEvent = page.usedEvent ∧ q.availEvent = page.availEvent := by
  unfold VirtIoQueue.new at h
  split at h
  · exact absurd h (by simp)
  · split at h
    · exact absurd h (by simp)
    · cases h
      exact ⟨rfl, rfl, rfl, rfl, rfl, rfl, rfl, rfl, rfl, rfl, rfl, rfl⟩

/-! ## Helper lemmas about the `add` loop and the chain walk -/

theorem lastAfter_eq_getLast? :
    ∀ (l : List Nat) (last : Option Nat), l ≠ [] → lastAfter last l = l.getLast?
  | [], _, h => absurd rfl h
  | [x], last, _ => by simp [lastAfter]
  | x :: y :: t, last, _ => by
      rw [show lastAfter last (x :: y :: t) = lastAfter (some x) (y :: t) from rfl,
        lastAfter_eq_getLast? (y :: t) (some x) (by simp),
        List.getLast?_cons_cons]

theorem addLoop_spec (SIZE : Nat) :
    ∀ (rdata : List Descriptor) (desc : List Descriptor) (free : List Nat)
      (last : Option Nat),
      rdata.length ≤ free.length →
      (free.take rdata.length).Nodup →
      (∀ i ∈ free.take rdata.length, i < SIZE) →
      desc.length = SIZE →
      ∃ desc',
        addLoop SIZE desc free last rdata =
          some (desc', free.drop rdata.length,
            lastAfter last (free.take rdata.length)) ∧
        desc'.length = SIZE ∧
        RevStored desc' last (free.take rdata.length) rdata ∧
        ∀ x, x ∉ free.take rdata.length → desc'.get? x = desc.get? x := by
  intro rdata
  induction rdata with
  | nil =>
      intro desc free last _ _ _ hdl
      exact ⟨desc, rfl, hdl, trivial, fun _ _ => rfl⟩
  | cons e rest ih =>
      intro desc free last hlen hnd hlt hdl
      match free with
      | [] => simp at hlen
      | f :: fs =>
          have hfsz : f < SIZE := hlt f (by simp)
          have htake : (f :: fs).take (e :: rest).length = f :: fs.take rest.length := by
            simp
          have hnd1 : (f :: fs.take rest.length).Nodup := htake ▸ hnd
          have hnd' : (fs.take rest.length).Nodup := hnd1.of_cons
          have hfnotin : f ∉ fs.take rest.length := (List.nodup_cons.mp hnd1).1
          have hlt' : ∀ i ∈ fs.take rest.length, i < SIZE := fun i hi =>
            hlt i (by rw [htake]; exact List.mem_cons_of_mem f hi)
          have hfmod : f % SIZE = f := Nat.mod_eq_of_lt hfsz
          have hset_len : (desc.set (f % SIZE) (linkDesc last e)).length = SIZE := by
            simpa using hdl
          have hlen' : rest.length ≤ fs.length := by simpa using hlen
          obtain ⟨desc', heq, hdlen', hrev, hout⟩ :=
            ih (desc.set (f % SIZE) (linkDesc last e)) fs (some f) hlen' hnd'
              hlt' hset_len
          refine ⟨desc', ?_, hdlen', ?_, ?_⟩
          · show addLoop SIZE (desc.set (f % SIZE) (linkDesc last e)) fs
                (some f) rest = _
            rw [heq]
            rfl
          · rw [htake]
            refine ⟨?_, hrev⟩
            rw [hout f hfnotin, hfmod]
            exact List.get?_set_eq_of_lt _ (hdl ▸ hfsz)
          · intro x hx
            rw [htake] at hx
            have hxf : x ≠ f := fun hc => hx (hc ▸ List.mem_cons_self f _)
            have hxfs : x ∉ fs.take rest.length := fun hc =>
              hx (List.mem_cons_of_mem f hc)
            rw [hout x hxfs, hfmod, List.get?_set_ne _ _ (fun hc => hxf hc.symm)]

theorem chainStoredAux_append (desc : List Descriptor) (term : Option Nat)
    (j : Nat) (d : Descriptor) :
    ∀ (ids : List Nat) (ds : List Descriptor),
      ChainStoredAux desc (some j) ids ds →
      desc.get? j = some (linkDesc term d) →
      ChainStoredAux desc term (ids ++ [j]) (ds ++ [d])
  | [], [], _, hj => hj
  | [i], [e], h, hj => ⟨h, hj⟩
  | i :: i2 :: is, e :: es, h, hj =>
      ⟨h.1, chainStoredAux_append desc term j d (i2 :: is) es h.2 hj⟩
  | [], _ :: _, h, _ => False.elim h
  | [_], [], h, _ => False.elim h
  | _ :: _ :: _, [], h, _ => False.elim h
  | [_], _ :: _ :: _, h, _ => False.elim h

theorem revStored_to_chain (desc : List Descriptor) :
    ∀ (fs : List Nat) (es : List Descriptor) (term : Option Nat),
      RevStored desc term fs es →
      ChainStoredAux desc term fs.reverse es.reverse
  | [], [], _, _ => trivial
  | f :: fs, e :: es, term, h => by
      obtain ⟨h1, h2⟩ := h
      have ih := revStored_to_chain desc fs es (some f) h2
      simpa using chainStoredAux_append desc term f e fs.reverse es.reverse ih h1
  | [], _ :: _, _, h => False.elim h
  | _ :: _, [], _, h => False.elim h

/-- Walking the descriptor table from the head of a stored well-formed
chain returns exactly the chain's index list. -/
theorem chain_walk (SIZE : Nat) (desc : List Descriptor)
    (hdl : desc.length = SIZE) :
    ∀ (ids : List Nat) (data : List Descriptor) (fuel : Nat),
      ChainStored desc ids data → WFChain data →
      (∀ i ∈ ids, i < SIZE) → ids.length ≤ fuel →
      ∀ t, ids.head? = some t →
      popWalk desc SIZE t fuel = some ids
  | [], _, _, _, _, _, _, _, hh => by simp at hh
  | [i], [d], fuel, hc, hwf, hlt, hfuel, t, hh => by
      have hit : i = t := by simpa using hh
      subst hit
      have hget : desc.get? i = some d := hc
      have hflag : d.flags &&& DescFlag.NEXT = 0 := hwf
      obtain ⟨fuel, rfl⟩ : ∃ f, fuel = f + 1 :=
        ⟨fuel - 1, by have := hfuel; simp at this; omega⟩
      show popWalk desc SIZE i (fuel + 1) = some [i]
      unfold popWalk
      rw [hget, Option.some_bind, if_neg (by simp [hflag])]
  | [i], d :: d2 :: ds, _, hc, _, _, _, _, _ => False.elim hc
  | i :: i2 :: is, [], _, hc, _, _, _, _, _ => False.elim hc
  | i :: i2 :: is, [d], _, hc, _, _, _, _, _ => by
      rcases is with _ | ⟨i3, is⟩ <;> exact False.elim hc.2
  | i :: i2 :: is, d :: d2 :: ds, fuel, hc, hwf, hlt, hfuel, t, hh => by
      have hit : i = t := by simpa using hh
      subst hit
      obtain ⟨hget, hc2⟩ := hc
      obtain ⟨hflag, hwf2⟩ := hwf
      have hti : i < SIZE := hlt i (by simp)
      have hlt2 : ∀ x ∈ i2 :: is, x < SIZE := fun x hx =>
        hlt x (List.mem_cons_of_mem i hx)
      obtain ⟨fuel, rfl⟩ : ∃ f, fuel = f + 1 :=
        ⟨fuel - 1, by have := hfuel; simp at this; omega⟩
      have ih : popWalk desc SIZE i2 fuel = some (i2 :: is) :=
        chain_walk SIZE desc hdl (i2 :: is) (d2 :: ds) fuel hc2 hwf2
          hlt2 (by simpa using hfuel) i2 rfl
      show popWalk desc SIZE i (fuel + 1) = some (i :: i2 :: is)
      unfold popWalk
      rw [hget, Option.some_bind,
        if_pos (show ({ d with next := i2 } : Descriptor).flags &&&
          DescFlag.NEXT ≠ 0 from hflag),
        Nat.mod_eq_of_lt hti, hget, Option.some_bind, ih]
      rfl

/-- The chain walk only reads the table at the chain's own indices, so
rewriting the table elsewhere does not change it. -/
theorem popWalk_congr (SIZE : Nat) (desc desc' : List Descriptor) :
    ∀ (fuel t : Nat) (c : List Nat),
      popWalk desc SIZE t fuel = some c →
      (∀ i ∈ c, i < SIZE ∧ desc'.get? i = desc.get? i) →
      popWalk desc' SIZE t fuel = some c
  | 0, _, _, h, _ => by cases h
  | fuel + 1, t, c, h, hag => by
      unfold popWalk at h ⊢
      cases hget : desc.get? t with
      | none => rw [hget] at h; cases h
      | some d =>
          rw [hget, Option.some_bind] at h
          by_cases hf : d.flags &&& DescFlag.NEXT ≠ 0
          · rw [if_pos hf] at h
            cases hget2 : desc.get? (t % SIZE) with
            | none => rw [hget2] at h; cases h
            | some d2 =>
                rw [hget2, Option.some_bind] at h
                cases hw : popWalk desc SIZE d2.next fuel with
                | none => rw [hw] at h; cases h
                | some c' =>
                    rw [hw] at h
                    have hcc : c = t :: c' := by
                      cases h; rfl
                    obtain ⟨htsz, hagt⟩ := hag t (by rw [hcc]; simp)
                    have ih : popWalk desc' SIZE d2.next fuel = some c' :=
                      popWalk_congr SIZE desc desc' fuel d2.next c' hw
                        (fun i hi => hag i
                          (by rw [hcc]; exact List.mem_cons_of_mem t hi))
                    have htmod : t % SIZE = t := Nat.mod_eq_of_lt htsz
                    rw [htmod] at hget2
                    rw [hget] at hget2
                    obtain rfl : d = d2 := Option.some.inj hget2
                    rw [hagt, hget, Option.some_bind, if_pos hf, htmod,
                      hagt, hget, Option.some_bind, ih]
                    rw [hcc]
                    rfl
          · rw [if_neg hf] at h
            have hcc : c = [t] := by cases h; rfl
            obtain ⟨_, hagt⟩ := hag t (by rw [hcc]; simp)
            rw [hagt, hget, Option.some_bind, if_neg hf]
            exact h

/-! ## end of chain-walk helper lemmas -/

/-- Full characterisation of a successful `add`: indices are popped off
the front of the free list, the chain is stored back-to-front with the
`next` links pointing at the previously written index, the head index
goes into `avail.ring[avail.idx % SIZE]`, `avail.idx` is incremented by
one (wrapping at 2^16), the head index is the returned token, and every
other part of the queue state is untouched. -/
theorem add_ok_spec (SIZE : Nat) (s s' : QState) (data : List Descriptor)
    (tok : Nat)
    (hnd : (s.avail_desc_index.take data.length).Nodup)
    (hlt : ∀ i ∈ s.avail_desc_index.take data.length, i < SIZE)
    (hdl : s.desc.length = SIZE)
    (h : VirtIoQueue.add SIZE s data = some (.ok (s', tok))) :
    (s.avail_desc_index.take data.length).getLast? = some tok ∧
    s'.avail_desc_index = s.avail_desc_index.drop data.length ∧
    s'.availIdx = (s.availIdx + 1) % 65536 ∧
    s'.availRing = s.availRing.set (s.availIdx % SIZE) tok ∧
    ChainStored s'.desc (s.avail_desc_index.take data.length).reverse data ∧
    (∀ x, x ∉ s.avail_desc_index.take data.length →
      s'.desc.get? x = s.desc.get? x) ∧
    s'.desc.length = SIZE ∧
    s'.availFlags = s.availFlags ∧ s'.usedEvent = s.usedEvent ∧
    s'.usedFlags = s.usedFlags ∧ s'.usedIdx = s.usedIdx ∧
    s'.usedRing = s.usedRing ∧ s'.availEvent = s.availEvent ∧
    s'.last_seen_used = s.last_seen_used ∧
    s'.poped_used = s.poped_used ∧
    data.length ≠ 0 ∧ data.length ≤ s.avail_desc_index.length := by
  unfold VirtIoQueue.add at h
  by_cases hne : data.length = 0
  · rw [if_pos hne] at h; cases h
  rw [if_neg hne] at h
  by_cases hfull : s.avail_desc_index.length < data.length
  · rw [if_pos hfull] at h; simp at h
  rw [if_neg hfull] at h
  have hlen : data.length ≤ s.avail_desc_index.length := Nat.le_of_not_lt hfull
  obtain ⟨desc', heq, hdlen', hrev, hout⟩ :=
    addLoop_spec SIZE data.reverse s.desc s.avail_desc_index none
      (by simpa using hlen) (by simpa using hnd) (by simpa using hlt) hdl
  simp only [List.length_reverse] at heq hrev hout
  rw [heq, Option.some_bind] at h
  have hTlen : (s.avail_desc_index.take data.length).length = data.length := by
    rw [List.length_take]
    exact Nat.min_eq_left hlen
  have hTne : s.avail_desc_index.take data.length ≠ [] := by
    intro hc
    rw [hc] at hTlen
    exact hne hTlen.symm
  obtain ⟨hd, hhd⟩ : ∃ x,
      (s.avail_desc_index.take data.length).getLast? = some x := by
    cases hx : (s.avail_desc_index.take data.length).getLast? with
    | none => exact absurd (List.getLast?_eq_none_iff.mp hx) hTne
    | some x => exact ⟨x, rfl⟩
  rw [lastAfter_eq_getLast? _ none hTne, hhd, Option.some_bind] at h
  obtain ⟨hrec, htok⟩ : _ ∧ hd = tok := by
    have := Option.some.inj h
    have := Except.ok.inj this
    exact Prod.mk.injEq .. ▸ this
  subst htok
  cases hrec
  refine ⟨hhd, rfl, rfl, rfl, ?_, hout, hdlen', rfl, rfl, rfl, rfl, rfl, rfl,
    rfl, rfl, hne, hlen⟩
  have hcs := revStored_to_chain desc' (s.avail_desc_index.take data.length)
    data.reverse none hrev
  rw [List.reverse_reverse] at hcs
  exact hcs

/-- Inversion of a successful `pop_used`: the freed indices are exactly
the descriptor-table walk from the token, appended to the free list's
tail; the descriptor table, the available ring and the used ring are
untouched. -/
theorem pop_used_ok_spec (SIZE : Nat) (s s' : QState) (t len : Nat)
    (h : VirtIoQueue.pop_used SIZE s t = some (.ok (s', len))) :
    ∃ freed, popWalk s.desc SIZE t (SIZE + 1) = some freed ∧
      s'.desc = s.desc ∧
      s'.avail_desc_index = s.avail_desc_index ++ freed ∧
      s'.availFlags = s.availFlags ∧ s'.availIdx = s.availIdx ∧
      s'.availRing = s.availRing ∧ s'.usedFlags = s.usedFlags ∧
      s'.usedIdx = s.usedIdx ∧ s'.usedRing = s.usedRing ∧
      s'.availEvent = s.availEvent := by
  unfold VirtIoQueue.pop_used at h
  by_cases hcp : ¬ VirtIoQueue.can_pop SIZE s t
  · rw [if_pos hcp] at h; simp at h
  rw [if_neg hcp] at h
  cases hsf : scanFind s.usedRing SIZE t s.last_seen_used
      ((s.usedIdx + 65536 - s.last_seen_used) % 65536) with
  | none => rw [hsf] at h; cases h
  | some header =>
      rw [hsf, Option.some_bind] at h
      cases hel : s.usedRing.get? (header % SIZE) with
      | none => rw [hel] at h; cases h
      | some elem =>
          rw [hel, Option.some_bind] at h
          cases hw : popWalk s.desc SIZE t (SIZE + 1) with
          | none => rw [hw] at h; cases h
          | some freed =>
              rw [hw, Option.some_bind] at h
              obtain ⟨hrec, hlen⟩ : _ ∧ elem.len = len := by
                have := Option.some.inj h
                have := Except.ok.inj this
                exact Prod.mk.injEq .. ▸ this
              cases hrec
              exact ⟨freed, rfl, rfl, rfl, rfl, rfl, rfl, rfl, rfl, rfl, rfl⟩

/-- Two list concatenations that shuffle the same three blocks are
permutations of each other. -/
theorem perm_shuffle {α : Type} (a b c d : List α) :
    List.Perm ((a ++ b) ++ (c ++ d)) (a ++ (c ++ (b ++ d))) := by
  have h1 : List.Perm ((a ++ b) ++ (c ++ d)) (a ++ (b ++ (c ++ d))) := by
    rw [List.append_assoc]
  have h2 : List.Perm (b ++ (c ++ d)) (c ++ (b ++ d)) := by
    rw [← List.append_assoc, ← List.append_assoc]
    exact (List.perm_append_comm).append_right d
  exact h1.trans (h2.append_left a)

/-- The strengthened queue invariant holds in every state reachable
under the caller flag convention. -/
theorem queueInv_of_reach (SIZE : Nat) (g : GState)
    (h : QueueReach SIZE WFChain g) : QueueInv SIZE g := by
  induction h with
  | init qU mx page q hWF hnew =>
      obtain ⟨hfree, -, -, -, -, -, hdesc, -⟩ := new_ok_spec SIZE qU mx page q hnew
      refine ⟨by rw [hdesc]; exact hWF.1, ?_, by simp⟩
      simp [hfree]
  | add g data q' tok hg hP hadd ih =>
      obtain ⟨hdl, hperm, hwalks⟩ := ih
      have hnodupAll : (g.q.avail_desc_index ++
          (g.published.map Prod.snd).flatten).Nodup :=
        hperm.nodup_iff.mpr (List.nodup_range SIZE)
      have hnodupParts := List.nodup_append.mp hnodupAll
      have hfreeNodup : g.q.avail_desc_index.Nodup := hnodupParts.1
      have hmemRange : ∀ i ∈ g.q.avail_desc_index ++
          (g.published.map Prod.snd).flatten, i < SIZE := fun i hi =>
        List.mem_range.mp (hperm.mem_iff.mp hi)
      have hfreeLt : ∀ i ∈ g.q.avail_desc_index, i < SIZE := fun i hi =>
        hmemRange i (List.mem_append_left _ hi)
      have htakeNodup : (g.q.avail_desc_index.take data.length).Nodup :=
        hfreeNodup.sublist (List.take_sublist _ _)
      have htakeLt : ∀ i ∈ g.q.avail_desc_index.take data.length, i < SIZE :=
        fun i hi => hfreeLt i (List.mem_of_mem_take hi)
      obtain ⟨hlast, hfree', havIdx, havRing, hstored, huntouched, hdl', -, -,
        -, -, -, -, -, -, hne, hlen⟩ :=
        add_ok_spec SIZE g.q q' data tok htakeNodup htakeLt hdl hadd
      have hTlen : (g.q.avail_desc_index.take data.length).length =
          data.length := by
        rw [List.length_take]
        exact Nat.min_eq_left hlen
      refine ⟨hdl', ?_, ?_⟩
      · show (q'.avail_desc_index ++
          ((g.q.avail_desc_index.take data.length).reverse ::
            g.published.map Prod.snd).flatten).Perm (List.range SIZE)
        rw [hfree', List.flatten_cons]
        have hsh : List.Perm (g.q.avail_desc_index.drop data.length ++
            ((g.q.avail_desc_index.take data.length).reverse ++
              (g.published.map Prod.snd).flatten))
            (g.q.avail_desc_index ++ (g.published.map Prod.snd).flatten) := by
          have h1 : List.Perm ((g.q.avail_desc_index.take data.length).reverse ++
              (g.published.map Prod.snd).flatten)
              (g.q.avail_desc_index.take data.length ++
              (g.published.map Prod.snd).flatten) :=
            (List.reverse_perm _).append_right _
          refine (h1.append_left _).trans ?_
          have h2 : List.Perm (g.q.avail_desc_index.drop data.length ++
              g.q.avail_desc_index.take data.length)
              g.q.avail_desc_index := by
            have hc : List.Perm (g.q.avail_desc_index.drop data.length ++
                g.q.avail_desc_index.take data.length)
                (g.q.avail_desc_index.take data.length ++
                  g.q.avail_desc_index.drop data.length) :=
              List.perm_append_comm
            rw [List.take_append_drop] at hc
            exact hc
          rw [← List.append_assoc]
          exact h2.append_right _
        exact hsh.trans hperm
      · intro p hp
        rcases List.mem_cons.mp hp with hpnew | hpold
        · subst hpnew
          refine chain_walk SIZE q'.desc hdl' _ data (SIZE + 1) hstored hP
            ?_ ?_ tok ?_
          · intro i hi
            exact htakeLt i (List.mem_reverse.mp hi)
          · rw [List.length_reverse, hTlen]
            have : g.q.avail_desc_index.length ≤ SIZE := by
              have := hperm.length_eq
              rw [List.length_append, List.length_range] at this
              omega
            omega
          · rw [List.head?_reverse]
            exact hlast
        · have hwold := hwalks p hpold
          refine popWalk_congr SIZE g.q.desc q'.desc (SIZE + 1) p.1 p.2 hwold
            (fun i hi => ?_)
          have himem : i ∈ (g.published.map Prod.snd).flatten :=
            List.mem_flatten.mpr ⟨p.2, List.mem_map_of_mem Prod.snd hpold, hi⟩
          refine ⟨hmemRange i (List.mem_append_right _ himem), ?_⟩
          refine huntouched i (fun hitake => ?_)
          exact (List.disjoint_of_nodup_append hnodupAll)
            (List.mem_of_mem_take hitake) himem
  | complete g t len hg hmem ih =>
      exact ih
  | pop g t c l1 l2 q' len hg hpub hpop ih =>
      obtain ⟨hdl, hperm, hwalks⟩ := ih
      obtain ⟨freed, hw, hdesc', hfree', -, -, -, -, -, -, -⟩ :=
        pop_used_ok_spec SIZE g.q q' t len hpop
      have hpmem : (t, c) ∈ g.published := by
        rw [hpub]
        exact List.mem_append_right _ (List.mem_cons_self _ _)
      have hwc : popWalk g.q.desc SIZE t (SIZE + 1) = some c := hwalks (t, c) hpmem
      have hfreedc : freed = c := by
        rw [hwc] at hw
        exact (Option.some.inj hw).symm
      subst hfreedc
      refine ⟨by rw [hdesc']; exact hdl, ?_, ?_⟩
      · rw [hfree', hdesc'] at *
        have hold : List.Perm (g.q.avail_desc_index ++
            (g.published.map Prod.snd).flatten) (List.range SIZE) := hperm
        rw [hpub] at hold
        rw [List.map_append, List.map_cons, List.flatten_append,
          List.flatten_cons] at hold
        have hnew : List.Perm ((g.q.avail_desc_index ++ freed) ++
            ((l1 ++ l2).map Prod.snd).flatten)
            (g.q.avail_desc_index ++ ((l1.map Prod.snd).flatten ++
              (freed ++ (l2.map Prod.snd).flatten))) := by
          rw [List.map_append, List.flatten_append]
          exact perm_shuffle _ _ _ _
        exact hnew.trans hold
      · intro p hp
        rw [hdesc']
        refine hwalks p ?_
        rw [hpub]
        rcases List.mem_append.mp hp with h1 | h2
        · exact List.mem_append_left _ h1
        · exact List.mem_append_right _ (List.mem_cons_of_mem _ h2)

/-- The claim's accounting property follows from the strengthened
invariant. -/
theorem freeLive_of_inv (SIZE : Nat) (g : GState)
    (hInv : QueueInv SIZE g) : FreeLiveProp SIZE g := by
  obtain ⟨hdl, hperm, hwalks⟩ := hInv
  have hreach : ∀ p ∈ g.published, reachList SIZE g.q.desc p.1 = p.2 := by
    intro p hp
    unfold reachList
    rw [hwalks p hp]
    rfl
  constructor
  · have hlen := hperm.length_eq
    rw [List.length_append, List.length_range, List.length_flatten] at hlen
    have hmaps : (g.published.map
        (fun p => (reachList SIZE g.q.desc p.1).length)) =
        ((g.published.map Prod.snd).map List.length) := by
      rw [List.map_map]
      exact List.map_congr_left (fun p hp => by rw [hreach p hp]; rfl)
    rw [hmaps]
    exact hlen
  · intro i hifree p hp hireach
    rw [hreach p hp] at hireach
    have hnodupAll : (g.q.avail_desc_index ++
        (g.published.map Prod.snd).flatten).Nodup :=
      hperm.nodup_iff.mpr (List.nodup_range SIZE)
    exact (List.disjoint_of_nodup_append hnodupAll) hifree
      (List.mem_flatten.mpr ⟨p.2, List.mem_map_of_mem Prod.snd hp, hireach⟩)

/-- Counterexample to C1 as stated: the free-list accounting can break
when a caller ignores the descriptor-flag convention (which `add` never
checks).  On a fresh size-4 queue, `add` of the single-descriptor chain
`[{flags NEXT, next 3}]` succeeds and publishes token 0, after which the
free list holds 3 indices while the table walk from token 0 reaches the
2 descriptors `[0, 3]`: the sum is 5 ≠ 4, and index 3 is both free and
reachable from the live chain. -/
theorem queue_free_live_fails_without_convention :
    QueueReach 4 (fun _ => True) gBadChain ∧ ¬ FreeLiveProp 4 gBadChain := by
  constructor
  · have h0 : QueueReach 4 (fun _ => True) ⟨qFresh4, []⟩ :=
      QueueReach.init false 4 (QueuePage.zeroed 4) qFresh4 (by decide)
        (by decide)
    have h1 := @QueueReach.add 4 (fun _ => True) ⟨qFresh4, []⟩
      [⟨0, 0, 1, 3⟩] qBadChain 0 h0 trivial (by decide)
    exact h1
  · decide

/-- C1 (amended): for every sequence of successful `add` and
`pop_used` calls on a `VirtIoQueue` of size `SIZE` — every added chain
following the callers' NEXT-flag convention, each returned token popped
at most once, in any order — at every quiescent point the free-list
length plus the number of descriptors reachable from
published-but-unreclaimed chains equals `SIZE`, and no index is both
free and reachable from a live chain. -/
theorem queue_free_live_invariant (SIZE : Nat) (g : GState)
    (h : QueueReach SIZE WFChain g) : FreeLiveProp SIZE g :=
  freeLive_of_inv SIZE g (queueInv_of_reach SIZE g h)

/-- Witness for C1 (amended): the freshly created size-4 queue. -/
theorem queue_free_live_invariant_witness :
    FreeLiveProp 4 ⟨qFresh4, []⟩ :=
  queue_free_live_invariant 4 ⟨qFresh4, []⟩
    (QueueReach.init false 4 (QueuePage.zeroed 4) qFresh4 (by decide)
      (by decide))

/-- Progress for `add`: a non-empty chain that fits the free list is
accepted. -/
theorem add_progress (SIZE : Nat) (s : QState) (data : List Descriptor)
    (hne : data.length ≠ 0) (hlen : data.length ≤ s.avail_desc_index.length)
    (hnd : (s.avail_desc_index.take data.length).Nodup)
    (hlt : ∀ i ∈ s.avail_desc_index.take data.length, i < SIZE)
    (hdl : s.desc.length = SIZE) :
    ∃ s' tok, VirtIoQueue.add SIZE s data = some (.ok (s', tok)) := by
  unfold VirtIoQueue.add
  rw [if_neg hne, if_neg (Nat.not_lt.mpr hlen)]
  obtain ⟨desc', heq, -, -, -⟩ :=
    addLoop_spec SIZE data.reverse s.desc s.avail_desc_index none
      (by simpa using hlen) (by simpa using hnd) (by simpa using hlt) hdl
  simp only [List.length_reverse] at heq
  rw [heq, Option.some_bind]
  have hTlen : (s.avail_desc_index.take data.length).length = data.length := by
    rw [List.length_take]
    exact Nat.min_eq_left hlen
  have hTne : s.avail_desc_index.take data.length ≠ [] := by
    intro hc
    rw [hc] at hTlen
    exact hne hTlen.symm
  obtain ⟨hd, hhd⟩ : ∃ x,
      (s.avail_desc_index.take data.length).getLast? = some x := by
    cases hx : (s.avail_desc_index.take data.length).getLast? with
    | none => exact absurd (List.getLast?_eq_none_iff.mp hx) hTne
    | some x => exact ⟨x, rfl⟩
  rw [lastAfter_eq_getLast? _ none hTne, hhd, Option.some_bind]
  exact ⟨_, hd, rfl⟩

/-- The slot-posting loop of `VirtIOInput::new`, run on a queue whose
free list is exactly the posted index list: it succeeds (every assert
holds), consumes the whole free list, stores each slot's WRITE
descriptor at its own index, and touches nothing else. -/
theorem postSlots_spec (ebase : Nat) :
    ∀ (is : List Nat) (s : QState),
      s.avail_desc_index = is → is.Nodup →
      (∀ i ∈ is, i < inputQueueSize) →
      s.desc.length = inputQueueSize →
      ∃ s1, postSlots ebase s is = some s1 ∧
        s1.avail_desc_index = [] ∧
        s1.desc.length = inputQueueSize ∧
        (∀ i ∈ is, s1.desc.get? i = some (inputDesc ebase i)) ∧
        (∀ x, x ∉ is → s1.desc.get? x = s.desc.get? x) ∧
        s1.usedIdx = s.usedIdx ∧ s1.usedRing = s.usedRing ∧
        s1.last_seen_used = s.last_seen_used ∧
        s1.poped_used = s.poped_used ∧
        s1.availRing.length = s.availRing.length
  | [], s, hfree, _, _, hdl =>
      ⟨s, rfl, hfree, hdl, by simp, fun _ _ => rfl, rfl, rfl, rfl, rfl, rfl⟩
  | i :: rest, s, hfree, hnd, hlt, hdl => by
      have htake : s.avail_desc_index.take
          ([inputDesc ebase i] : List Descriptor).length = [i] := by
        rw [hfree]
        rfl
      have hiLt : i < inputQueueSize := hlt i (List.mem_cons_self _ _)
      obtain ⟨s', tok, haddeq⟩ :=
        add_progress inputQueueSize s [inputDesc ebase i] (by simp)
          (by rw [hfree]; simp) (by rw [htake]; simp)
          (by rw [htake]; simpa using hiLt) hdl
      obtain ⟨hlast, hfree', -, -, hstored, huntouch, hdl', -, -, -, hUIdx,
        hURing, -, hLSU, hPoped, -, -⟩ :=
        add_ok_spec inputQueueSize s s' [inputDesc ebase i] tok
          (by rw [htake]; simp) (by rw [htake]; simpa using hiLt) hdl haddeq
      rw [htake] at hlast hstored huntouch
      obtain rfl : i = tok := by simpa using hlast
      have hfree'' : s'.avail_desc_index = rest := by
        rw [hfree', hfree]
        rfl
      have havr : s'.availRing.length = s.availRing.length := by
        have h := add_ok_spec inputQueueSize s s' [inputDesc ebase i] i
          (by rw [htake]; simp) (by rw [htake]; simpa using hiLt) hdl haddeq
        rw [h.2.2.2.1]
        exact List.length_set ..
      obtain ⟨s1, hrec, h1, h2, h3, h4, h5, h6, h7, h8, h9⟩ :=
        postSlots_spec ebase rest s' hfree'' (List.nodup_cons.mp hnd).2
          (fun x hx => hlt x (List.mem_cons_of_mem _ hx)) hdl'
      have hstep : postSlots ebase s (i :: rest) = postSlots ebase s' rest := by
        show (VirtIoQueue.add inputQueueSize s [inputDesc ebase i]).bind _ =
          postSlots ebase s' rest
        rw [haddeq, Option.some_bind]
        show (if i = i then postSlots ebase s' rest else none) = _
        rw [if_pos rfl]
      have hinotrest : i ∉ rest := (List.nodup_cons.mp hnd).1
      refine ⟨s1, by rw [hstep]; exact hrec, h1, h2, ?_, ?_,
        by rw [h5, hUIdx], by rw [h6, hURing], by rw [h7, hLSU],
        by rw [h8, hPoped], by rw [h9, havr]⟩
      · intro x hx
        rcases List.mem_cons.mp hx with rfl | hxrest
        · rw [h4 x hinotrest]
          have : s'.desc.get? x = some (linkDesc none (inputDesc ebase x)) :=
            hstored
          simpa [linkDesc] using this
        · exact h3 x hxrest
      · intro x hx
        have hxi : x ≠ i := fun hc => hx (hc ▸ List.mem_cons_self _ _)
        have hxrest : x ∉ rest := fun hc => hx (List.mem_cons_of_mem _ hc)
        rw [h4 x hxrest]
        exact huntouch x (by simpa using hxi)

/-- Under the input-driver invariant, a peeked token is the head of the
completion queue, and popping it computes to: the token goes to the
(previously empty) free list, the cursor advances by exactly one, and
the out-of-order set is empty again. -/
theorem input_pop_compute (g : IState) (t : Nat) (hInv : InputInv g)
    (hpeek : VirtIoQueue.peek_used inputQueueSize g.q = some t) :
    g.completed.head? = some t ∧
    ∃ len, VirtIoQueue.pop_used inputQueueSize g.q t =
      some (.ok (popResultState g.q t, len)) := by
  obtain ⟨hdl, havl, hurl, hfree, hchains, hperm, hcnd, hcsub, hls, huidx,
    hclen, hwindow, hpoped⟩ := hInv
  unfold VirtIoQueue.peek_used at hpeek
  by_cases hlsne : g.q.last_seen_used = g.q.usedIdx
  · rw [if_pos hlsne] at hpeek; cases hpeek
  rw [if_neg hlsne] at hpeek
  obtain ⟨t0, ctail, hcomp⟩ : ∃ t0 ctail, g.completed = t0 :: ctail := by
    cases hc : g.completed with
    | nil =>
        exfalso
        apply hlsne
        rw [huidx, hc]
        simp
        omega
    | cons t0 ctail => exact ⟨t0, ctail, rfl⟩
  have hw0 := hwindow 0 t0 (by rw [hcomp]; rfl)
  rw [Nat.add_zero] at hw0
  obtain ⟨e, he, heid⟩ : ∃ e,
      g.q.usedRing.get? (g.q.last_seen_used % inputQueueSize) = some e ∧
      e.id = t0 := by
    cases hx : g.q.usedRing.get? (g.q.last_seen_used % inputQueueSize) with
    | none => rw [hx] at hw0; cases hw0
    | some e =>
        rw [hx] at hw0
        exact ⟨e, rfl, by simpa using hw0⟩
  have ht : t0 = t := by
    rw [he] at hpeek
    have := Option.some.inj hpeek
    rw [← this, heid]
  rw [ht] at hcomp heid
  have hclen32 : g.completed.length ≤ 32 := hclen
  have hn1 : 1 ≤ g.completed.length := by rw [hcomp]; simp
  have hskip : (g.q.usedIdx + 65536 - g.q.last_seen_used) % 65536 =
      g.completed.length := by
    rw [huidx]
    omega
  obtain ⟨m, hm⟩ : ∃ m, g.completed.length = m + 1 :=
    ⟨g.completed.length - 1, by omega⟩
  have hscan : scanFind g.q.usedRing inputQueueSize t g.q.last_seen_used
      g.completed.length = some g.q.last_seen_used := by
    rw [hm]
    show (g.q.usedRing.get? (g.q.last_seen_used % inputQueueSize)).bind _ =
      some g.q.last_seen_used
    rw [he, Option.some_bind, if_pos heid]
  have hcanpop : VirtIoQueue.can_pop inputQueueSize g.q t = true := by
    unfold VirtIoQueue.can_pop
    rw [if_neg hlsne, hskip, hscan]
    rfl
  obtain ⟨p, hp, hpt⟩ : ∃ p ∈ g.published, p.1 = t := by
    have := hcsub t (by rw [hcomp]; exact List.mem_cons_self _ _)
    obtain ⟨p, hp, hpt⟩ := List.mem_map.mp this
    exact ⟨p, hp, hpt⟩
  obtain ⟨-, -, d, hd, hdflag⟩ := hchains p hp
  rw [hpt] at hd
  have hwalk : popWalk g.q.desc inputQueueSize t (inputQueueSize + 1) =
      some [t] := by
    show (g.q.desc.get? t).bind _ = some [t]
    rw [hd, Option.some_bind, if_neg (by simp [hdflag])]
  refine ⟨by rw [hcomp]; rfl, e.len, ?_⟩
  unfold VirtIoQueue.pop_used
  rw [if_neg (by simp [hcanpop]), hskip, hscan, Option.some_bind, he,
    Option.some_bind, hwalk, Option.some_bind, hfree, hpoped]
  have hsi : setInsert [] g.q.last_seen_used = [g.q.last_seen_used] := by
    simp [setInsert]
  rw [hsi]
  have hadv : advanceLoop [g.q.last_seen_used] g.q.last_seen_used
      ([g.q.last_seen_used].length + 1) =
      ([], (g.q.last_seen_used + 1) % 65536) := by
    show advanceLoop [g.q.last_seen_used] g.q.last_seen_used 2 = _
    unfold advanceLoop
    rw [if_pos (List.mem_singleton.mpr rfl), List.erase_cons_head]
    unfold advanceLoop
    rw [if_neg (List.not_mem_nil _)]
  rw [hadv]
  rfl

/-- The input-driver invariant holds in every reachable state. -/
theorem inputInv_of_reach (ebase : Nat) (g : IState)
    (h : InputReach ebase g) : InputInv g := by
  induction h with
  | init qU mx page q0 q1 hWF hUIdx hnew hpost =>
      obtain ⟨hfree0, hlsu0, hpop0, -, -, hq0uidx, hdesc0, hring0, huring0,
        -, -, -⟩ := new_ok_spec inputQueueSize qU mx page q0 hnew
      obtain ⟨s1, hrec, h1, h2, h3, h4, h5, h6, h7, h8, h9⟩ :=
        postSlots_spec ebase (List.range inputQueueSize) q0 hfree0
          (List.nodup_range _) (fun i hi => List.mem_range.mp hi)
          (by rw [hdesc0]; exact hWF.1)
      obtain rfl : s1 = q1 := by
        rw [hrec] at hpost
        exact Option.some.inj hpost
      refine ⟨h2, ?_, ?_, h1, ?_, ?_, List.nodup_nil,
        fun t ht => absurd ht (List.not_mem_nil t), ?_, ?_, by simp, ?_, ?_⟩
      · rw [h9, hring0]
        exact hWF.2.1
      · rw [h6, huring0]
        exact hWF.2.2
      · intro p hp
        obtain ⟨i, hi, rfl⟩ := List.mem_map.mp hp
        have hilt : i < inputQueueSize := List.mem_range.mp hi
        refine ⟨rfl, hilt, inputDesc ebase i, h3 i hi, ?_⟩
        show (2 : Nat) &&& (1 : Nat) = 0
        decide
      · show (((List.range inputQueueSize).map (fun i => (i, [i]))).map
          Prod.fst).Perm (List.range inputQueueSize)
        rw [List.map_map]
        exact List.Perm.refl _
      · rw [h7, hlsu0]
        decide
      · simp [h5, hq0uidx, hUIdx, h7, hlsu0]
      · intro j t ht
        simp at ht
      · rw [h8, hpop0]
  | complete g t len hg hmem hnotc ih =>
      obtain ⟨hdl, havl, hurl, hfree, hchains, hperm, hcnd, hcsub, hls,
        huidx, hclen, hwindow, hpoped⟩ := ih
      have hclen32 : g.completed.length ≤ 32 := hclen
      have hls32 : g.q.last_seen_used < 65536 := hls
      have hlt32 : g.completed.length < 32 := by
        by_contra hge
        push_neg at hge
        have hn32 : g.completed.length = 32 := Nat.le_antisymm hclen32 hge
        have htoknd : (g.published.map Prod.fst).Nodup :=
          hperm.nodup_iff.mpr (List.nodup_range _)
        have htoklen : (g.published.map Prod.fst).length = 32 := by
          have := hperm.length_eq
          simpa using this
        have hsubf : g.completed.toFinset ⊆
            (g.published.map Prod.fst).toFinset := by
          intro x hx
          exact List.mem_toFinset.mpr (hcsub x (List.mem_toFinset.mp hx))
        have hc1 : g.completed.toFinset.card = 32 := by
          rw [List.toFinset_card_of_nodup hcnd, hn32]
        have hc2 : (g.published.map Prod.fst).toFinset.card = 32 := by
          rw [List.toFinset_card_of_nodup htoknd, htoklen]
        have heqf : g.completed.toFinset =
            (g.published.map Prod.fst).toFinset :=
          Finset.eq_of_subset_of_card_le hsubf (by omega)
        exact hnotc (List.mem_toFinset.mp
          (heqf ▸ List.mem_toFinset.mpr hmem))
      refine ⟨hdl, havl, by simpa [deviceComplete] using hurl, hfree,
        hchains, hperm, ?_, ?_, hls, ?_, ?_, ?_, hpoped⟩
      · rw [List.nodup_append]
        exact ⟨hcnd, List.nodup_singleton t,
          fun x hx hxt => hnotc ((List.mem_singleton.mp hxt) ▸ hx)⟩
      · intro x hx
        rcases List.mem_append.mp hx with h1 | h2
        · exact hcsub x h1
        · rw [List.mem_singleton.mp h2]
          exact hmem
      · show (g.q.usedIdx + 1) % 65536 =
          (g.q.last_seen_used + (g.completed ++ [t]).length) % 65536
        rw [huidx, List.length_append, List.length_singleton]
        omega
      · show (g.completed ++ [t]).length ≤ 32
        rw [List.length_append, List.length_singleton]
        omega
      · intro j x hjx
        show (((g.q.usedRing.set (g.q.usedIdx % inputQueueSize)
          ⟨t, len⟩)).get? ((g.q.last_seen_used + j) % inputQueueSize)).map
            UsedElem.id = some x
        have huidxmod : g.q.usedIdx % inputQueueSize =
            (g.q.last_seen_used + g.completed.length) % inputQueueSize := by
          rw [huidx]
          show (g.q.last_seen_used + g.completed.length) % 65536 % 32 =
            (g.q.last_seen_used + g.completed.length) % 32
          omega
        rcases Nat.lt_trichotomy j g.completed.length with hj | hj | hj
        · have hold : g.completed.get? j = some x := by
            rw [← List.get?_append hj]
            exact hjx
          have hne : (g.q.last_seen_used + g.completed.length) %
              inputQueueSize ≠
              (g.q.last_seen_used + j) % inputQueueSize := by
            show (g.q.last_seen_used + g.completed.length) % 32 ≠
              (g.q.last_seen_used + j) % 32
            omega
          rw [huidxmod, List.get?_set_ne _ _ hne]
          exact hwindow j x hold
        · subst hj
          have hx : x = t := by
            rw [List.get?_append_right (Nat.le_refl _)] at hjx
            simp at hjx
            exact hjx.symm
          subst hx
          have hposlt : (g.q.last_seen_used + g.completed.length) %
              inputQueueSize < g.q.usedRing.length := by
            rw [hurl]
            exact Nat.mod_lt _ (by decide)
          rw [huidxmod, List.get?_set_eq_of_lt _ hposlt]
          rfl
        · exfalso
          have : (g.completed ++ [t]).get? j = none := by
            rw [List.get?_eq_none]
            rw [List.length_append]
            simp only [List.length_singleton]
            omega
          rw [this] at hjx
          cases hjx
  | popEvent g t c l1 l2 ctail q' q'' len tok hg hpeek hpub hcomp hpop
      haddeq ih =>
      obtain ⟨hhead, len0, hpop0⟩ := input_pop_compute g t ih hpeek
      obtain ⟨hdl, havl, hurl, hfree, hchains, hperm, hcnd, hcsub, hls,
        huidx, hclen, hwindow, hpoped⟩ := ih
      have hls32 : g.q.last_seen_used < 65536 := hls
      have hq' : q' = popResultState g.q t := by
        rw [hpop] at hpop0
        exact (Prod.mk.injEq .. ▸ Except.ok.inj (Option.some.inj hpop0)).1
      have htmem : t ∈ g.published.map Prod.fst := by
        rw [hpub]
        rw [List.map_append, List.map_cons]
        exact List.mem_append_right _ (List.mem_cons_self _ _)
      have htlt : t < inputQueueSize :=
        List.mem_range.mp (hperm.mem_iff.mp htmem)
      have hq'free : q'.avail_desc_index = [t] := by rw [hq']; rfl
      have hq'desc : q'.desc = g.q.desc := by rw [hq']; rfl
      have htake : q'.avail_desc_index.take
          ([inputDesc ebase t] : List Descriptor).length = [t] := by
        rw [hq'free]
        rfl
      obtain ⟨hlast, hfree'', havIdx'', havRing'', hstored'', huntouch'',
        hdl'', -, -, -, hUIdx'', hURing'', -, hLSU'', hPoped'', -, -⟩ :=
        add_ok_spec inputQueueSize q' q'' [inputDesc ebase t] tok
          (by rw [htake]; simp) (by rw [htake]; simpa using htlt)
          (by rw [hq'desc]; exact hdl) haddeq
      rw [htake] at hlast hstored'' huntouch''
      obtain rfl : t = tok := by simpa using hlast
      have htoknd : (g.published.map Prod.fst).Nodup :=
        hperm.nodup_iff.mpr (List.nodup_range _)
      have htnotrest : ∀ p ∈ l1 ++ l2, p.1 ≠ t := by
        intro p hp hpt
        have htoknd2 := htoknd
        rw [hpub, List.map_append, List.map_cons] at htoknd2
        obtain ⟨nd1, nd2, disj⟩ := List.nodup_append.mp htoknd2
        rcases List.mem_append.mp hp with h1 | h2
        · have hmm : p.1 ∈ l1.map Prod.fst := List.mem_map_of_mem Prod.fst h1
          rw [hpt] at hmm
          exact disj hmm (List.mem_cons_self _ _)
        · have hmm : p.1 ∈ l2.map Prod.fst := List.mem_map_of_mem Prod.fst h2
          rw [hpt] at hmm
          exact (List.nodup_cons.mp nd2).1 hmm
      refine ⟨hdl'', ?_, ?_, by rw [hfree'', hq'free]; rfl, ?_, ?_, ?_, ?_,
        ?_, ?_, ?_, ?_, by rw [hPoped'', hq']; rfl⟩
      · rw [havRing'', List.length_set, hq']
        exact havl
      · rw [hURing'', hq']
        exact hurl
      · intro p hp
        rcases List.mem_append.mp hp with hpold | hpnew
        · obtain ⟨hp2, hp1lt, d, hdp, hdfl⟩ := hchains p (by
            rw [hpub]
            rcases List.mem_append.mp hpold with h1 | h2
            · exact List.mem_append_left _ h1
            · exact List.mem_append_right _ (List.mem_cons_of_mem _ h2))
          refine ⟨hp2, hp1lt, d, ?_, hdfl⟩
          rw [huntouch'' p.1 (by
            intro hc
            exact htnotrest p hpold (List.mem_singleton.mp hc)), hq'desc]
          exact hdp
        · rw [List.mem_singleton.mp hpnew]
          refine ⟨rfl, htlt, inputDesc ebase t, ?_, by
            show (2 : Nat) &&& (1 : Nat) = 0
            decide⟩
          have : q''.desc.get? t = some (linkDesc none (inputDesc ebase t)) :=
            hstored''
          simpa [linkDesc] using this
      · show ((l1 ++ l2) ++ [(t, [t])] |>.map Prod.fst).Perm
          (List.range inputQueueSize)
        rw [List.map_append, List.map_append]
        simp only [List.map_cons, List.map_nil]
        have h1 : List.Perm ((l1.map Prod.fst ++ l2.map Prod.fst) ++ [t])
            (t :: (l1.map Prod.fst ++ l2.map Prod.fst)) :=
          List.perm_append_singleton _ _
        have h2 : List.Perm (t :: (l1.map Prod.fst ++ l2.map Prod.fst))
            (l1.map Prod.fst ++ t :: l2.map Prod.fst) :=
          List.perm_middle.symm
        have hold : List.Perm (l1.map Prod.fst ++ t :: l2.map Prod.fst)
            (List.range inputQueueSize) := by
          have := hperm
          rw [hpub, List.map_append, List.map_cons] at this
          exact this
        exact (h1.trans h2).trans hold
      · rw [hcomp] at hcnd
        exact (List.nodup_cons.mp hcnd).2
      · intro x hx
        have hxold : x ∈ g.completed := by
          rw [hcomp]
          exact List.mem_cons_of_mem _ hx
        have hxtok := hcsub x hxold
        have hpermOldNew : List.Perm (g.published.map Prod.fst)
            (((l1 ++ l2) ++ [(t, [t])]).map Prod.fst) := by
          rw [hpub, List.map_append, List.map_cons, List.map_append,
            List.map_append]
          simp only [List.map_cons, List.map_nil]
          have h2 : List.Perm (l1.map Prod.fst ++ t :: l2.map Prod.fst)
              (t :: (l1.map Prod.fst ++ l2.map Prod.fst)) :=
            List.perm_middle
          have h1 : List.Perm (t :: (l1.map Prod.fst ++ l2.map Prod.fst))
              ((l1.map Prod.fst ++ l2.map Prod.fst) ++ [t]) :=
            (List.perm_append_singleton _ _).symm
          exact h2.trans h1
        exact hpermOldNew.mem_iff.mp hxtok
      · show q''.last_seen_used < 65536
        rw [hLSU'', hq']
        show (g.q.last_seen_used + 1) % 65536 < 65536
        omega
      · show q''.usedIdx = (q''.last_seen_used + ctail.length) % 65536
        rw [hUIdx'', hLSU'', hq']
        show g.q.usedIdx = ((g.q.last_seen_used + 1) % 65536 +
          ctail.length) % 65536
        rw [huidx, hcomp, List.length_cons]
        omega
      · have hct : ctail.length + 1 ≤ 32 := by
          have h32 : g.completed.length ≤ 32 := hclen
          rw [hcomp] at h32
          simpa using h32
        show ctail.length ≤ 32
        omega
      · intro j x hjx
        have hold : g.completed.get? (j + 1) = some x := by
          rw [hcomp]
          exact hjx
        have hw := hwindow (j + 1) x hold
        show ((q''.usedRing.get? ((q''.last_seen_used + j) %
          inputQueueSize)).map UsedElem.id) = some x
        rw [hURing'', hLSU'', hq']
        show ((g.q.usedRing.get? (((g.q.last_seen_used + 1) % 65536 + j) %
          32)).map UsedElem.id) = some x
        have hidx : ((g.q.last_seen_used + 1) % 65536 + j) % 32 =
            (g.q.last_seen_used + (j + 1)) % 32 := by
          omega
        rw [hidx]
        exact hw

/-- C10: in every reachable state of the input driver's event queue
(all 32 slots initially posted), whenever `peek_used` yields a ready
token `t`, popping it and re-adding the same slot's descriptor returns
exactly `t`, so the `assert_eq!(new_token, token)` in
`pop_pending_event` never fails — even though `pop_used` appends freed
indices to the tail of the free list and `add` consumes from its front
(the free list is empty at the peek, so the two ends coincide). -/
theorem input_repost_returns_same_token (ebase : Nat) (g : IState) (t : Nat)
    (hreach : InputReach ebase g)
    (hpeek : VirtIoQueue.peek_used inputQueueSize g.q = some t) :
    repostAfterPop inputQueueSize ebase g.q t = some (.ok t) := by
  have hInv := inputInv_of_reach ebase g hreach
  obtain ⟨hhead, len0, hpop0⟩ := input_pop_compute g t hInv hpeek
  obtain ⟨hdl, havl, hurl, hfree, hchains, hperm, hcnd, hcsub, hls,
    huidx, hclen, hwindow, hpoped⟩ := hInv
  have htmem : t ∈ g.published.map Prod.fst := by
    apply hcsub
    cases hc : g.completed with
    | nil => rw [hc] at hhead; cases hhead
    | cons t0 ctail =>
        rw [hc] at hhead
        have ht0 : t0 = t := by simpa using hhead
        rw [ht0]
        exact List.mem_cons_self _ _
  have htlt : t < inputQueueSize :=
    List.mem_range.mp (hperm.mem_iff.mp htmem)
  have htk : (popResultState g.q t).avail_desc_index.take
      ([inputDesc ebase t] : List Descriptor).length = [t] := rfl
  obtain ⟨s', tok, haddeq⟩ :=
    add_progress inputQueueSize (popResultState g.q t) [inputDesc ebase t]
      (by simp) (by show (1 : Nat) ≤ 1; exact Nat.le_refl 1)
      (by rw [htk]; simp) (by rw [htk]; simpa using htlt)
      (by show g.q.desc.length = inputQueueSize; exact hdl)
  have hlast := (add_ok_spec inputQueueSize (popResultState g.q t) s'
    [inputDesc ebase t] tok (by rw [htk]; simp)
    (by rw [htk]; simpa using htlt)
    (by show g.q.desc.length = inputQueueSize; exact hdl) haddeq).1
  rw [htk] at hlast
  obtain rfl : t = tok := by simpa using hlast
  unfold repostAfterPop
  rw [hpop0]
  show (VirtIoQueue.add inputQueueSize (popResultState g.q t)
    [inputDesc ebase t]).map (Except.map Prod.snd) = some (.ok t)
  rw [haddeq]
  rfl

/-- Witness for C10: the initialised input driver after the device
completed event slot 5. -/
theorem input_repost_returns_same_token_witness :
    repostAfterPop inputQueueSize 1000 inputG.q 5 = some (.ok 5) := by
  have h0 : InputReach 1000 ⟨inputQ1, inputPub, []⟩ :=
    InputReach.init false 32 (QueuePage.zeroed 32) inputQ0 inputQ1
      (by decide) (by decide) (by decide) (by decide)
  have h1 : InputReach 1000 inputG :=
    InputReach.complete ⟨inputQ1, inputPub, []⟩ 5 8 h0 (by decide) (by decide)
  exact input_repost_returns_same_token 1000 inputG 5 h1 (by decide)

/-- Counterexample to C2 as stated: `add` never writes the NEXT flag.
On a fresh size-4 queue, adding a two-descriptor chain whose flags are
both `EMPTY` succeeds with head token 1, and the stored head descriptor
(which is not the last of the chain) still has flags 0 — its NEXT bit is
not set.  The flags stored are exactly the callers'. -/
theorem add_no_next_marking :
    (VirtIoQueue.add 4 qFresh4 [⟨10, 20, 0, 0⟩, ⟨11, 22, 0, 0⟩]).map
      (Except.map (fun r =>
        ((r.1.desc.get? 1).map fun d => d.flags &&& DescFlag.NEXT, r.2))) =
      some (.ok (some 0, 1)) ∧ (0 : Nat) &&& DescFlag.NEXT = 0 := by
  decide

/-- C2 (amended): a successful `add` of a non-empty chain that fits the
free list pops exactly `len(chain)` indices off the front of the free
list, writes the chain into the descriptor table in reverse so that each
stored descriptor's `next` points at the previously written index (the
chain tail keeps its own `next`; all flags are stored exactly as the
caller set them — `add` does not mark NEXT itself), writes the head
index into `avail.ring[avail.idx % SIZE]`, increments `avail.idx` by
exactly 1 (wrapping at 2^16), and returns the head index — the last
popped one — as the token. -/
theorem add_publishes_chain (SIZE : Nat) (s s' : QState)
    (data : List Descriptor) (tok : Nat)
    (hnd : (s.avail_desc_index.take data.length).Nodup)
    (hlt : ∀ i ∈ s.avail_desc_index.take data.length, i < SIZE)
    (hdl : s.desc.length = SIZE)
    (h : VirtIoQueue.add SIZE s data = some (.ok (s', tok))) :
    (s.avail_desc_index.take data.length).getLast? = some tok ∧
    s'.avail_desc_index = s.avail_desc_index.drop data.length ∧
    ChainStored s'.desc (s.avail_desc_index.take data.length).reverse data ∧
    (∀ x, x ∉ s.avail_desc_index.take data.length →
      s'.desc.get? x = s.desc.get? x) ∧
    s'.availRing = s.availRing.set (s.availIdx % SIZE) tok ∧
    s'.availIdx = (s.availIdx + 1) % 65536 := by
  obtain ⟨h1, h2, h3, h4, h5, h6, _⟩ := add_ok_spec SIZE s s' data tok hnd hlt hdl h
  exact ⟨h1, h2, h5, h6, h4, h3⟩

/-- Witness for C2 (amended): the two-descriptor chain
`[{10,20,NEXT}, {11,22,WRITE}]` added to a fresh size-4 queue. -/
theorem add_publishes_chain_witness :
    ([0, 1].getLast? = some 1) ∧
    qTwoChain.avail_desc_index = [2, 3] ∧
    ChainStored qTwoChain.desc [1, 0] [⟨10, 20, 1, 0⟩, ⟨11, 22, 2, 0⟩] ∧
    (∀ x, x ∉ [0, 1] → qTwoChain.desc.get? x = qFresh4.desc.get? x) ∧
    qTwoChain.availRing = qFresh4.availRing.set (qFresh4.availIdx % 4) 1 ∧
    qTwoChain.availIdx = (qFresh4.availIdx + 1) % 65536 := by
  have h := add_publishes_chain 4 qFresh4 qTwoChain
    [⟨10, 20, 1, 0⟩, ⟨11, 22, 2, 0⟩] 1 (by decide) (by decide) (by decide)
    (by decide)
  exact h

/-- C3: `add(chain)` with a chain longer than the current free list
returns `QueueFull`.  In the source the length check precedes every
mutation, and the embedding mirrors this: the error is produced before
any field of the state enters the computation, so no queue state changes
and no partial chain is published. -/
theorem add_full_rejects (SIZE : Nat) (s : QState) (data : List Descriptor)
    (hne : data.length ≠ 0) (hfull : s.avail_desc_index.length < data.length) :
    VirtIoQueue.add SIZE s data = some (.error .QueueFull) := by
  unfold VirtIoQueue.add
  rw [if_neg hne, if_pos hfull]

/-- Witness for C3: a five-descriptor chain on a fresh size-4 queue. -/
theorem add_full_rejects_witness :
    VirtIoQueue.add 4 qFresh4 (List.replicate 5 default) =
      some (.error .QueueFull) :=
  add_full_rejects 4 qFresh4 (List.replicate 5 default) (by decide) (by decide)

/-- C5: `MmioTransport::new` fails with `BadMagic v` exactly when the
magic register read `v ≠ 0x74726976`; otherwise with `ZeroDeviceId`
exactly when the device-id register read 0; otherwise with
`UnsupportedVersion v` exactly when the version register read
`v ∉ {1, 2}`; otherwise it succeeds. -/
theorem mmio_new_cases (r : MmioRegs) :
    (∀ v, MmioTransport.new r = .error (.MmioError (.BadMagic v)) ↔
      r.magic = v ∧ v ≠ MAGIC) ∧
    (MmioTransport.new r = .error (.MmioError .ZeroDeviceId) ↔
      r.magic = MAGIC ∧ r.deviceId = 0) ∧
    (∀ v, MmioTransport.new r = .error (.MmioError (.UnsupportedVersion v)) ↔
      r.magic = MAGIC ∧ r.deviceId ≠ 0 ∧ r.version = v ∧
        v ≠ LEGACY_VERSION ∧ v ≠ MODERN_VERSION) ∧
    ((∃ ver, MmioTransport.new r = .ok ver) ↔
      r.magic = MAGIC ∧ r.deviceId ≠ 0 ∧
        (r.version = LEGACY_VERSION ∨ r.version = MODERN_VERSION)) := by
  unfold MmioTransport.new MmioVersion.tryFrom
  by_cases h1 : r.magic = MAGIC <;>
    by_cases h2 : r.deviceId = 0 <;>
    by_cases h3 : r.version = LEGACY_VERSION <;>
    by_cases h4 : r.version = MODERN_VERSION <;>
    simp_all

/-- Witness for C5: a present device reporting version 9 is rejected
with `UnsupportedVersion 9`. -/
theorem mmio_new_cases_witness :
    MmioTransport.new ⟨MAGIC, 7, 9⟩ =
      .error (.MmioError (.UnsupportedVersion 9)) :=
  ((mmio_new_cases ⟨MAGIC, 7, 9⟩).2.2.1 9).mpr
    ⟨rfl, by decide, rfl, by decide, by decide⟩

/-- Counterexample to C6 as stated: a status byte of 3 (the `NOT_READY`
sentinel) is converted to `NotReady`, not to `IoError`. -/
theorem blk_status3_yields_notready :
    blkRespIntoResult BlkRespStatus.NOT_READY = .error .NotReady ∧
    blkRespIntoResult BlkRespStatus.NOT_READY ≠ .error .IoError := by
  decide

/-- C6 (amended): the device-written status byte determines the result
of a completed block request: 0 succeeds, 1 is `IoError`, 2 is
`Unsupported`, 3 (the still-present `NOT_READY` sentinel) is `NotReady`,
and every other byte is `IoError`. -/
theorem blk_status_result_cases (status : Nat) :
    blkRespIntoResult BlkRespStatus.OK = .ok () ∧
    blkRespIntoResult BlkRespStatus.IO_ERR = .error .IoError ∧
    blkRespIntoResult BlkRespStatus.UNSUPPORTED = .error .Unsupported ∧
    blkRespIntoResult BlkRespStatus.NOT_READY = .error .NotReady ∧
    (3 < status → blkRespIntoResult status = .error .IoError) := by
  refine ⟨by decide, by decide, by decide, by decide, fun h => ?_⟩
  have h0 : status ≠ BlkRespStatus.OK := by
    unfold BlkRespStatus.OK; omega
  have h1 : status ≠ BlkRespStatus.IO_ERR := by
    unfold BlkRespStatus.IO_ERR; omega
  have h2 : status ≠ BlkRespStatus.UNSUPPORTED := by
    unfold BlkRespStatus.UNSUPPORTED; omega
  have h3 : status ≠ BlkRespStatus.NOT_READY := by
    unfold BlkRespStatus.NOT_READY; omega
  simp [blkRespIntoResult, h0, h1, h2, h3]

/-- Witness for C6 (amended): status byte 4 is `IoError`. -/
theorem blk_status_result_cases_witness :
    blkRespIntoResult 4 = .error .IoError :=
  (blk_status_result_cases 4).2.2.2.2 (by decide)

/-- C7: once the receive queue pops a completed receive with
device-reported total length `len`, `receive_complete` returns the
header length `NET_HDR_SIZE = 10` and the packet length `len - 10` when
`10 ≤ len`, and `IoError` (via `checked_sub`, no underflow) when
`len < 10`. -/
theorem receive_complete_header_split (SIZE : Nat) (s s' : QState)
    (t len : Nat)
    (hpop : VirtIoQueue.pop_used SIZE s t = some (.ok (s', len))) :
    VirtIONetRaw.receive_complete SIZE s t =
      some (if NET_HDR_SIZE ≤ len
        then .ok (s', NET_HDR_SIZE, len - NET_HDR_SIZE)
        else .error .IoError) := by
  unfold VirtIONetRaw.receive_complete checkedSub
  rw [hpop]
  by_cases h : NET_HDR_SIZE ≤ len <;> simp [h]

/-- Witness for C7: popping the completed 30-byte receive... the
concrete queue `exRecvS` with device-reported length 20 splits into
header 10 and packet 10. -/
theorem receive_complete_header_split_witness :
    VirtIONetRaw.receive_complete 4 exRecvS 0 =
      some (.ok (exRecvSPop, NET_HDR_SIZE, 10)) := by
  have h := receive_complete_header_split 4 exRecvS exRecvSPop 0 20 (by decide)
  rw [if_pos (by decide)] at h
  exact h

/-- Evidence for C8 (code bug): on a size-4 buffered net device with all
four receive slots posted and slot 0 completed by the device (30 bytes:
10-byte header + 20-byte packet), `receive` succeeds and returns the
20-byte packet, but afterwards descriptor 0 sits on the free list and
the available ring and its index are untouched: the slot was never
re-posted, so only 3 of the 4 receive slots remain outstanding. -/
theorem net_receive_leaves_slot_unposted :
    (VirtIONet.receive 4 netS netRx netData).map (Except.map (fun r =>
      (r.1.avail_desc_index, r.1.availIdx, r.1.availRing, r.2.2))) =
      some (.ok ([0], 4, [0, 1, 2, 3], 20)) := by
  decide

/-- Evidence for C9 (code bug): on a fresh console, `poll_retrieve`
(with the device answering 5 bytes) returns with `receive_token =
Some(0)` even though the request it posted has already been completed
and popped inside the call: both descriptors of the receive queue are
free again and the used ring is fully consumed
(`last_seen_used = used.idx`), so no receive request is outstanding and
no later `finish_receive` can ever observe one. -/
theorem console_poll_retrieve_completes_inline :
    (VirtIOConsole.poll_retrieve 5000 console0 5).map (Except.map (fun c =>
      (c.receive_token, c.receiveq.avail_desc_index,
        c.receiveq.last_seen_used, c.receiveq.usedIdx))) =
      some (.ok (some 0, [1, 0], 1, 1)) := by
  decide

/-- Counterexample to C4 as stated: `VirtIoQueue::new` succeeds on a
page whose available-ring header holds flags 7 and idx 5, and the new
queue still reads those values — `new` itself writes neither field. -/
theorem new_keeps_page_avail_header :
    (VirtIoQueue.new 4 false 4 junkPage).map
      (fun q => (q.availFlags, q.availIdx)) = .ok (7, 5) := by
  decide

/-- C4 (amended): a successful `VirtIoQueue::new` initialises the
driver-side fields — free list exactly `0..SIZE` in increasing order,
`last_seen_used = 0`, empty completion set — while the available ring's
flags and idx (and the rest of the ring memory) keep whatever the
allocated DMA page held; they are zero exactly when the page was
zeroed. -/
theorem new_driver_side_init (SIZE : Nat) (qU : Bool) (mx : Nat)
    (page : QueuePage) (q : QState)
    (h : VirtIoQueue.new SIZE qU mx page = .ok q) :
    q.avail_desc_index = List.range SIZE ∧ q.last_seen_used = 0 ∧
    q.poped_used = [] ∧ q.availFlags = page.availFlags ∧
    q.availIdx = page.availIdx ∧ q.usedIdx = page.usedIdx ∧
    q.desc = page.desc := by
  obtain ⟨h1, h2, h3, h4, h5, h6, h7, _⟩ := new_ok_spec SIZE qU mx page q h
  exact ⟨h1, h2, h3, h4, h5, h6, h7⟩

/-- Witness for C4 (amended): the queue built on `junkPage`. -/
theorem new_driver_side_init_witness :
    qJunkNew.avail_desc_index = List.range 4 ∧ qJunkNew.last_seen_used = 0 ∧
    qJunkNew.poped_used = [] ∧ qJunkNew.availFlags = junkPage.availFlags ∧
    qJunkNew.availIdx = junkPage.availIdx ∧
    qJunkNew.usedIdx = junkPage.usedIdx ∧ qJunkNew.desc = junkPage.desc :=
  new_driver_side_init 4 false 4 junkPage qJunkNew (by decide)

end SafeVirtio
